import Mathlib

/-!
Verification development for the DocBook-Editor repository.

The definitions below are a shallow embedding of the TypeScript sources
`src/services/docbookParser.ts` and `src/components/RenderedView.tsx`.
Strings are modelled as `List Char`; absolute offsets into the raw text are
`Nat`.  Recursions that the source expresses as regex scanning or while
loops are expressed with an explicit fuel argument so that every definition
is executable by the kernel; fuel exhaustion is mapped to `none` and is
proved unreachable for the fuel actually supplied.
-/

set_option maxHeartbeats 1000000

/-- Characters matched by the JavaScript regex class backslash-s, which is
also the character set removed by `String.prototype.trim`.  Besides ASCII
whitespace it contains NBSP, the Unicode space separators, the line
separators and the BOM. -/
def isJsWs (c : Char) : Bool :=
  c = ' ' || c = '\t' || c = '\n' || c = '\r' ||
  c.toNat = 11 || c.toNat = 12 || c.toNat = 160 || c.toNat = 5760 ||
  (8192 ≤ c.toNat && c.toNat ≤ 8202) || c.toNat = 8232 || c.toNat = 8233 ||
  c.toNat = 8239 || c.toNat = 8287 || c.toNat = 12288 || c.toNat = 65279

/-- Characters allowed in a tag name by the source regexes: `[a-zA-Z0-9_:]`. -/
def isNameChar (c : Char) : Bool :=
  (c ≥ 'a' && c ≤ 'z') || (c ≥ 'A' && c ≤ 'Z') || (c ≥ '0' && c ≤ '9') ||
  c = '_' || c = ':'

/-- Characters allowed in an attribute name: `[a-zA-Z0-9_:-]`. -/
def isAttrNameChar (c : Char) : Bool := isNameChar c || c = '-'

/-- JavaScript `String.prototype.trim`: strip `isJsWs` characters from both
ends. -/
def jsTrim (s : List Char) : List Char :=
  ((s.dropWhile isJsWs).reverse.dropWhile isJsWs).reverse

/-- ASCII lower-casing as performed by `toLowerCase` on the tag names matched
by the source regexes (those contain only `[a-zA-Z0-9_:]`). -/
def jsToLower (c : Char) : Char :=
  if c ≥ 'A' && c ≤ 'Z' then Char.ofNat (c.toNat + 32) else c

/-- Token kinds of the tokenizer in `src/services/docbookParser.ts`
(`'open' | 'close' | 'text' | 'comment' | 'self-closing'`). -/
inductive TokType where
  | openTag
  | closeTag
  | text
  | comment
  | selfClosing
deriving DecidableEq, Repr

/-- The `Token` interface of `src/services/docbookParser.ts`.  The optional
fields `tag`, `attributes` and `content` are modelled with empty defaults;
each token kind fills exactly the fields the source fills. -/
structure Token where
  type : TokType
  tag : List Char := []
  attributes : List (List Char × List Char) := []
  content : List Char := []
  startIndex : Nat
  endIndex : Nat
deriving DecidableEq, Repr

/-- JavaScript object write `m[k] = v`: replace the value in place when the
key is present, append otherwise. -/
def objSet (m : List (List Char × List Char)) (k v : List Char) :
    List (List Char × List Char) :=
  if m.any (fun p => p.1 = k) then
    m.map (fun p => if p.1 = k then (k, v) else p)
  else m ++ [(k, v)]

/-- JavaScript object read `m[k]`. -/
def objGet (m : List (List Char × List Char)) (k : List Char) :
    Option (List Char) :=
  (m.find? (fun p => p.1 = k)).map (fun p => p.2)

/-- JavaScript object spread of `b` onto `a`. -/
def objMerge (a b : List (List Char × List Char)) :
    List (List Char × List Char) :=
  b.foldl (fun acc p => objSet acc p.1 p.2) a

/-- Comment body scan: split the input at the first occurrence of the literal
`-->`; models the non-greedy tail of the comment alternative of `tokenRegex`. -/
def splitAtCommentEnd : List Char → Option (List Char × List Char)
  | [] => none
  | '-' :: '-' :: '>' :: rest => some ([], rest)
  | c :: rest =>
      (splitAtCommentEnd rest).map (fun p => (c :: p.1, p.2))

/-- The comment alternative `(<!--(?:.|Whitespace)*?-->)` of `tokenRegex`:
matches from `<!--` up to and including the nearest `-->`.  Returns the full
matched text and the number of characters consumed. -/
def matchComment (s : List Char) : Option (List Char × Nat) :=
  match s with
  | '<' :: '!' :: '-' :: '-' :: rest =>
      (splitAtCommentEnd rest).map (fun p =>
        ('<' :: '!' :: '-' :: '-' :: (p.1 ++ ['-', '-', '>']),
         4 + p.1.length + 3))
  | _ => none

/-- The close-tag alternative of `tokenRegex`: a literal slash after the
angle bracket, one or more name characters, then the closing angle bracket
with no intervening whitespace.  Returns the case-folded tag name (the
source computes `closeTag.slice(2, -1).toLowerCase()`) and the number of
characters consumed. -/
def matchClose (s : List Char) : Option (List Char × Nat) :=
  match s with
  | '<' :: '/' :: rest =>
      let name := rest.takeWhile isNameChar
      if name.isEmpty then none
      else
        match rest.drop name.length with
        | '>' :: _ => some (name.map jsToLower, 2 + name.length + 1)
        | _ => none
  | _ => none

/-- One iteration of the attribute group of `tokenRegex`:
whitespace+, attribute name+, `=`, then a double- or single-quoted value.
Returns the name, the value and the consumed length, or `none` when the
iteration does not match (the caller then falls back to the tag ending). -/
def matchAttr (s : List Char) : Option (List Char × List Char × Nat) :=
  let ws := s.takeWhile isJsWs
  if ws.isEmpty then none
  else
    let s1 := s.drop ws.length
    let name := s1.takeWhile isAttrNameChar
    if name.isEmpty then none
    else
      match s1.drop name.length with
      | '=' :: '"' :: rest =>
          let v := rest.takeWhile (fun c => c ≠ '"')
          match rest.drop v.length with
          | '"' :: _ =>
              some (name, v, ws.length + name.length + 2 + v.length + 1)
          | _ => none
      | '=' :: '\'' :: rest =>
          let v := rest.takeWhile (fun c => c ≠ '\'')
          match rest.drop v.length with
          | '\'' :: _ =>
              some (name, v, ws.length + name.length + 2 + v.length + 1)
          | _ => none
      | _ => none

/-- The attribute group of `tokenRegex`, iterated greedily.  Collects the
attribute map exactly as the source `while` loop over `attributeRegex`
does, writing each pair with JavaScript object semantics (a repeated name
overwrites the earlier value).  Returns the map and the consumed length. -/
def attrLoop : Nat → List Char → List (List Char × List Char) → Nat →
    List (List Char × List Char) × Nat
  | 0, _, acc, consumed => (acc, consumed)
  | fuel + 1, s, acc, consumed =>
      match matchAttr s with
      | none => (acc, consumed)
      | some (name, v, len) =>
          attrLoop fuel (s.drop len) (objSet acc name v) (consumed + len)

/-- The open/self-closing alternative of `tokenRegex`: angle bracket, tag
name, attribute group, optional whitespace, optional slash, closing angle
bracket.  Returns the case-folded tag name, the attribute map, the
self-closing flag and the consumed length. -/
def matchOpen (s : List Char) : Option (List Char × List (List Char × List Char) × Bool × Nat) :=
  match s with
  | '<' :: rest =>
      let name := rest.takeWhile isNameChar
      if name.isEmpty then none
      else
        let afterName := rest.drop name.length
        let (attrs, attrLen) := attrLoop afterName.length afterName [] 0
        let afterAttrs := afterName.drop attrLen
        let ws := afterAttrs.takeWhile isJsWs
        match afterAttrs.drop ws.length with
        | '/' :: '>' :: _ =>
            some (name.map jsToLower, attrs, true,
              1 + name.length + attrLen + ws.length + 2)
        | '>' :: _ =>
            some (name.map jsToLower, attrs, false,
              1 + name.length + attrLen + ws.length + 1)
        | _ => none
  | _ => none

/-- The text-token construction of `tokenize` (the last two branches of the
scanner): a run whose trim is nonempty is pushed with its start advanced
past the leading whitespace and its content trimmed, while a pure-whitespace
run is pushed verbatim; the end offset is the end of the run in both cases. -/
def textTok (pos : Nat) (run : List Char) : List Token :=
  if (jsTrim run).length > 0 then
    let trimStart := (run.takeWhile isJsWs).length
    [{ type := .text, content := jsTrim run,
       startIndex := pos + trimStart, endIndex := pos + run.length }]
  else if run.length > 0 then
    [{ type := .text, content := run,
       startIndex := pos, endIndex := pos + run.length }]
  else []

/-- The scanner loop of `tokenize`.  At each position the alternatives of
`tokenRegex` are tried in order (comment, close tag, open/self-closing tag,
text); a `<` matching none of them is skipped silently, exactly as a global
regex resumes its search one character further on. -/
def tokenizeF : Nat → List Char → Nat → List Token
  | 0, _, _ => []
  | _ + 1, [], _ => []
  | fuel + 1, c :: rest, pos =>
      if c = '<' then
        match matchComment (c :: rest) with
        | some (content, len) =>
            { type := .comment, content := content,
              startIndex := pos, endIndex := pos + len }
              :: tokenizeF fuel ((c :: rest).drop len) (pos + len)
        | none =>
          match matchClose (c :: rest) with
          | some (tag, len) =>
              { type := .closeTag, tag := tag,
                startIndex := pos, endIndex := pos + len }
                :: tokenizeF fuel ((c :: rest).drop len) (pos + len)
          | none =>
            match matchOpen (c :: rest) with
            | some (tag, attrs, sc, len) =>
                { type := if sc then .selfClosing else .openTag, tag := tag,
                  attributes := attrs,
                  startIndex := pos, endIndex := pos + len }
                  :: tokenizeF fuel ((c :: rest).drop len) (pos + len)
            | none => tokenizeF fuel rest (pos + 1)
      else
        let run := (c :: rest).takeWhile (fun x => x ≠ '<')
        textTok pos run ++ tokenizeF fuel ((c :: rest).drop run.length) (pos + run.length)

/-- `tokenize` of `src/services/docbookParser.ts`. -/
def tokenize (s : List Char) : List Token :=
  tokenizeF (s.length + 1) s 0

/-- Decimal digit character, as produced by JavaScript `Number.toString()`
for a single digit. -/
def decDigit (d : Nat) : Char := Char.ofNat (48 + d)

/-- Little-endian-to-big-endian decimal printer for a positive natural, with
structural fuel (adequate whenever `fuel ≥ n`). -/
def natCharsAux : Nat → Nat → List Char
  | _, 0 => []
  | 0, _ + 1 => []
  | fuel + 1, m + 1 =>
      natCharsAux fuel ((m + 1) / 10) ++ [decDigit ((m + 1) % 10)]

/-- JavaScript `n.toString()` for a natural number `n`: its decimal digits. -/
def natStr (n : Nat) : List Char :=
  if n = 0 then ['0'] else natCharsAux n n

/-- Identifier given to a text child: `text-` followed by the counter value. -/
def txtId (n : Nat) : List Char := 't' :: 'e' :: 'x' :: 't' :: '-' :: natStr n

/-- The `TAG_MAP` table of `src/components/RenderedView.tsx` (element type
names are kept as strings). -/
def TAG_MAP : List (List Char × List Char) :=
  [("article".data, "div".data), ("title".data, "h1".data),
   ("para".data, "p".data), ("itemizedlist".data, "ul".data),
   ("listitem".data, "li".data), ("emphasis".data, "em".data),
   ("phrase".data, "span".data), ("superscript".data, "sup".data),
   ("subscript".data, "sub".data), ("strong".data, "strong".data),
   ("sect1".data, "section".data), ("sect2".data, "section".data),
   ("ulink".data, "a".data), ("link".data, "a".data)]

/-- The `PROPS_MAP` table of `src/components/RenderedView.tsx`; every entry
is a single `className` property. -/
def PROPS_MAP : List (List Char × List (List Char × List Char)) :=
  [("h1".data, [("className".data,
      "text-3xl font-bold mb-4 border-b border-gray-300 pb-2 text-gray-900".data)]),
   ("h2".data, [("className".data, "text-2xl font-bold mb-3 mt-6 text-gray-900".data)]),
   ("h3".data, [("className".data, "text-xl font-bold mb-2 mt-4 text-gray-900".data)]),
   ("section".data, [("className".data, "py-2".data)]),
   ("p".data, [("className".data, "mb-4".data)]),
   ("ul".data, [("className".data, "list-disc pl-8 mb-4".data)]),
   ("li".data, [("className".data, "mb-2".data)]),
   ("em".data, [("className".data, "italic text-indigo-600".data)]),
   ("strong".data, [("className".data, "font-bold text-teal-600".data)]),
   ("sup".data, [("className".data, "align-super text-sm".data)]),
   ("sub".data, [("className".data, "align-sub text-sm".data)]),
   ("a".data, [("className".data, "text-blue-600 underline hover:text-blue-800".data)])]

/-- Lookup in `PROPS_MAP`. -/
def propsOf (k : List Char) : List (List Char × List Char) :=
  ((PROPS_MAP.find? (fun p => p.1 = k)).map (fun p => p.2)).getD []

/-- JavaScript truthiness filter on an optional string: an absent or empty
string is falsy. -/
def truthyOpt : Option (List Char) → Option (List Char)
  | none => none
  | some v => if v = [] then none else some v

/-- The link-target resolution of the parser
(`token.attributes?.url || token.attributes?.['xlink:href']`, then
`if (url)`). -/
def resolvedUrl (attributes : List (List Char × List Char)) : Option (List Char) :=
  match truthyOpt (objGet attributes "url".data) with
  | some u => some u
  | none => truthyOpt (objGet attributes "xlink:href".data)

/-- The variant-resolution block of `parse`
(`src/services/docbookParser.ts`, the `title` / `emphasis` / link
branches): returns the chosen component and its `dynamicProps`. -/
def resolveVariant (tagName : List Char) (parentTagName : Option (List Char))
    (attributes : List (List Char × List Char)) :
    List Char × List (List Char × List Char) :=
  let component := (objGet TAG_MAP tagName).getD "div".data
  let dynamicProps := propsOf tagName
  if tagName = "title".data then
    match parentTagName with
    | some p =>
        if p = "article".data then ("h1".data, propsOf "h1".data)
        else if p = "sect1".data then ("h2".data, propsOf "h2".data)
        else if p = "sect2".data then ("h3".data, propsOf "h3".data)
        else ("strong".data,
          [("className".data, "font-bold text-lg block text-gray-800".data)])
    | none => ("strong".data,
          [("className".data, "font-bold text-lg block text-gray-800".data)])
  else if tagName = "emphasis".data then
    match objGet attributes "role".data with
    | some r =>
        if r = "bold".data then
          ("strong".data, objMerge dynamicProps (propsOf "strong".data))
        else if r = "underline".data then
          ("span".data, objSet dynamicProps "className".data
            (jsTrim (((objGet dynamicProps "className".data).getD []) ++
              " underline decoration-yellow-500 text-yellow-700".data)))
        else (component, dynamicProps)
    | none => (component, dynamicProps)
  else if component = "a".data then
    match resolvedUrl attributes with
    | some u =>
        (component, objSet (objSet (objSet dynamicProps "href".data u)
          "target".data "_blank".data) "rel".data "noopener noreferrer".data)
    | none => (component, dynamicProps)
  else (component, dynamicProps)

/-- The `ParsedNode` / `ParsedTextNode` tree of `src/types.ts`.  A `node`
carries id, component, props, children, `startIndex`, `endIndex`,
`contentStartIndex` and `contentEndIndex`; a `text` leaf carries id,
content, `startIndex` and `endIndex`. -/
inductive PChild where
  | text (id : List Char) (content : List Char) (startIndex endIndex : Nat)
  | node (id : List Char) (component : List Char)
      (props : List (List Char × List Char)) (children : List PChild)
      (startIndex endIndex contentStartIndex contentEndIndex : Nat)
deriving Repr

/-- Start offset of a parsed child. -/
def PChild.startIdx : PChild → Nat
  | .text _ _ s _ => s
  | .node _ _ _ _ s _ _ _ => s

/-- End offset of a parsed child. -/
def PChild.endIdx : PChild → Nat
  | .text _ _ _ e => e
  | .node _ _ _ _ _ e _ _ => e

/-- Identifier of a parsed child. -/
def PChild.pid : PChild → List Char
  | .text i _ _ _ => i
  | .node i _ _ _ _ _ _ _ => i

/-- Component of a parsed child (text leaves have none). -/
def PChild.comp : PChild → List Char
  | .text _ _ _ _ => []
  | .node _ c _ _ _ _ _ _ => c

/-- Props of a parsed child (text leaves have none). -/
def PChild.props : PChild → List (List Char × List Char)
  | .text _ _ _ _ => []
  | .node _ _ pr _ _ _ _ _ => pr

/-- Children of a parsed child (text leaves have none). -/
def PChild.children : PChild → List PChild
  | .text _ _ _ _ => []
  | .node _ _ _ ch _ _ _ _ => ch

/-- Content-start offset of a parsed child (text leaves reuse their start). -/
def PChild.csIdx : PChild → Nat
  | .text _ _ s _ => s
  | .node _ _ _ _ _ _ cs _ => cs

/-- Content-end offset of a parsed child (text leaves reuse their end). -/
def PChild.ceIdx : PChild → Nat
  | .text _ _ _ e => e
  | .node _ _ _ _ _ _ _ ce => ce

/-- Content of a parsed child (nodes have none). -/
def PChild.content : PChild → List Char
  | .text _ c _ _ => c
  | .node _ _ _ _ _ _ _ _ => []

mutual

/-- The recursive function `parse(tokens, index, parentTagName)` of
`src/services/docbookParser.ts`, with the process-wide `nodeIdCounter`
threaded explicitly (the source reads and post-increments it; being
single-threaded, that is exactly state threading) and with structural fuel.
Returns the node, the next token index and the updated counter.  `none` is
returned when the indexed token is missing or is not an open/self-closing
token — the source returns `null` there — or when fuel runs out. -/
def parseF : Nat → List Token → Nat → Option (List Char) → Nat →
    Option (PChild × Nat × Nat)
  | 0, _, _, _, _ => none
  | fuel + 1, tokens, index, parentTagName, ctr =>
      match tokens.get? index with
      | none => none
      | some token =>
          if h : token.type = .openTag ∨ token.type = .selfClosing then
            let tagName := token.tag
            let cdp := resolveVariant tagName parentTagName token.attributes
            if token.type = .openTag then
              match childLoopF fuel tokens tagName (index + 1) []
                  token.endIndex token.endIndex ctr with
              | none => none
              | some (children, contentEnd, finalEnd, nextIndex, ctr') =>
                  some (.node (natStr ctr') cdp.1
                    (objSet cdp.2 "data-id".data (natStr ctr')) children
                    token.startIndex finalEnd token.endIndex contentEnd,
                    nextIndex, ctr' + 1)
            else
              some (.node (natStr ctr) cdp.1
                (objSet cdp.2 "data-id".data (natStr ctr)) []
                token.startIndex token.endIndex token.endIndex token.endIndex,
                index + 1, ctr + 1)
          else none
termination_by structural fuel tokens index parentTagName ctr => fuel

/-- The child-consumption `while` loop inside `parse`.  State: accumulated
children, `contentEndIndex`, `finalEndIndex`, `nextIndex` and the id
counter.  A close token with the same (case-folded) tag name ends the loop;
a text token with nonempty content is pushed as a text child; an open or
self-closing token recurses with the current tag as parent (the source's
`else nextIndex++` arm for a `null` recursive result is unreachable there,
because `parse` only returns `null` on non-open tokens, so a `none` from
the recursion means fuel ran out and is propagated); any other token is
skipped. -/
def childLoopF : Nat → List Token → List Char → Nat → List PChild →
    Nat → Nat → Nat → Option (List PChild × Nat × Nat × Nat × Nat)
  | 0, _, _, _, _, _, _, _ => none
  | fuel + 1, tokens, tagName, nextIndex, children, contentEnd, finalEnd, ctr =>
      match tokens.get? nextIndex with
      | none => some (children, contentEnd, finalEnd, nextIndex, ctr)
      | some nextToken =>
          if nextToken.type = .closeTag ∧ nextToken.tag = tagName then
            some (children, nextToken.startIndex, nextToken.endIndex,
              nextIndex + 1, ctr)
          else if nextToken.type = .text then
            if nextToken.content ≠ [] then
              childLoopF fuel tokens tagName (nextIndex + 1)
                (children ++ [.text (txtId ctr) nextToken.content
                  nextToken.startIndex nextToken.endIndex])
                contentEnd finalEnd (ctr + 1)
            else
              childLoopF fuel tokens tagName (nextIndex + 1) children
                contentEnd finalEnd ctr
          else if nextToken.type = .openTag ∨ nextToken.type = .selfClosing then
            match parseF fuel tokens nextIndex (some tagName) ctr with
            | some (child, n, ctr') =>
                childLoopF fuel tokens tagName n (children ++ [child])
                  contentEnd finalEnd ctr'
            | none => none
          else
            childLoopF fuel tokens tagName (nextIndex + 1) children
              contentEnd finalEnd ctr
termination_by structural fuel tokens tagName nextIndex children contentEnd finalEnd ctr => fuel

end

/-- Fuel that always suffices for `parseF` (each token index is examined at
most once by one loop and at most once by one recursive call). -/
def parseFuel (tokens : List Token) : Nat := 2 * tokens.length + 2

/-- `parse` at its standard fuel. -/
def parse (tokens : List Token) (index : Nat) (parentTagName : Option (List Char))
    (ctr : Nat) : Option (PChild × Nat × Nat) :=
  parseF (parseFuel tokens) tokens index parentTagName ctr

/-- Name characters accepted by the well-formedness gate (a permissive
superset of XML name characters). -/
def isXmlNameChar (c : Char) : Bool := isNameChar c || c = '-' || c = '.'

/-- Decimal digit test. -/
def isDigitC (c : Char) : Bool := c ≥ '0' && c ≤ '9'

/-- Hexadecimal digit test. -/
def isHexC (c : Char) : Bool :=
  isDigitC c || (c ≥ 'a' && c ≤ 'f') || (c ≥ 'A' && c ≤ 'F')

/-- Entity reference after an ampersand: one of the five predefined XML
entities or a numeric character reference, terminated by a semicolon. -/
def entityRest (s : List Char) : Option (List Char) :=
  match s with
  | 'a' :: 'm' :: 'p' :: ';' :: r => some r
  | 'l' :: 't' :: ';' :: r => some r
  | 'g' :: 't' :: ';' :: r => some r
  | 'q' :: 'u' :: 'o' :: 't' :: ';' :: r => some r
  | 'a' :: 'p' :: 'o' :: 's' :: ';' :: r => some r
  | '#' :: 'x' :: rest =>
      let d := rest.takeWhile isHexC
      if d.isEmpty then none
      else match rest.drop d.length with
           | ';' :: r => some r
           | _ => none
  | '#' :: rest =>
      let d := rest.takeWhile isDigitC
      if d.isEmpty then none
      else match rest.drop d.length with
           | ';' :: r => some r
           | _ => none
  | _ => none

/-- Scan to the first unquoted closing angle bracket (for DOCTYPE-like
declarations). -/
def skipToGt : List Char → Option (List Char)
  | [] => none
  | '>' :: r => some r
  | _ :: r => skipToGt r

/-- Scan to the end marker of a processing instruction. -/
def skipToPIEnd : List Char → Option (List Char)
  | [] => none
  | '?' :: '>' :: r => some r
  | _ :: r => skipToPIEnd r

/-- Scan to the end marker of a CDATA section. -/
def skipToCdataEnd : List Char → Option (List Char)
  | [] => none
  | ']' :: ']' :: '>' :: r => some r
  | _ :: r => skipToCdataEnd r

/-- Attribute list of a start tag for the well-formedness gate: whitespace
separated `name = quoted-value` pairs followed by `>` or `/>`.  Returns the
self-closing flag and the rest of the input. -/
def xmlAttrScan : Nat → List Char → Option (Bool × List Char)
  | 0, _ => none
  | fuel + 1, s =>
      let s1 := s.dropWhile isJsWs
      match s1 with
      | '>' :: r => some (false, r)
      | '/' :: '>' :: r => some (true, r)
      | c :: _ =>
          if isXmlNameChar c then
            let name := s1.takeWhile isXmlNameChar
            let s2 := (s1.drop name.length).dropWhile isJsWs
            match s2 with
            | '=' :: s3 =>
                match s3.dropWhile isJsWs with
                | '"' :: rest =>
                    let v := rest.takeWhile (fun x => x ≠ '"' && x ≠ '<')
                    match rest.drop v.length with
                    | '"' :: r2 => xmlAttrScan fuel r2
                    | _ => none
                | '\'' :: rest =>
                    let v := rest.takeWhile (fun x => x ≠ '\'' && x ≠ '<')
                    match rest.drop v.length with
                    | '\'' :: r2 => xmlAttrScan fuel r2
                    | _ => none
                | _ => none
            | _ => none
          else none
      | [] => none

/-- Modelled from the spec: the coarse well-formedness pre-check that
`parseDocBook` delegates to the browser's `DOMParser` (platform code that
is not part of this repository).  A stack-based scanner over the raw text:
tags must nest and match case-sensitively, an end tag may carry whitespace
before its closing angle bracket (XML `ETag ::= S?`), exactly one
root element must exist, nothing but whitespace, comments and processing
instructions may sit outside it, and ampersands must begin well-formed
entity references. -/
def wfScan : Nat → List Char → List (List Char) → Nat → Bool
  | 0, _, _, _ => false
  | _ + 1, [], stack, roots => stack.isEmpty && roots = 1
  | fuel + 1, '<' :: rest, stack, roots =>
      match rest with
      | '!' :: '-' :: '-' :: r =>
          match splitAtCommentEnd r with
          | some p => wfScan fuel p.2 stack roots
          | none => false
      | '!' :: '[' :: 'C' :: 'D' :: 'A' :: 'T' :: 'A' :: '[' :: r =>
          if stack.isEmpty then false
          else match skipToCdataEnd r with
               | some r2 => wfScan fuel r2 stack roots
               | none => false
      | '!' :: r =>
          if stack.isEmpty && roots = 0 then
            match skipToGt r with
            | some r2 => wfScan fuel r2 stack roots
            | none => false
          else false
      | '?' :: r =>
          match skipToPIEnd r with
          | some r2 => wfScan fuel r2 stack roots
          | none => false
      | '/' :: r =>
          let name := r.takeWhile isXmlNameChar
          if name.isEmpty then false
          else
            match (r.drop name.length).dropWhile isJsWs with
            | '>' :: r3 =>
                match stack with
                | top :: stk => if top = name then wfScan fuel r3 stk roots else false
                | [] => false
            | _ => false
      | _ =>
          let name := rest.takeWhile isXmlNameChar
          if name.isEmpty then false
          else if stack.isEmpty && roots ≠ 0 then false
          else
            match xmlAttrScan (rest.length + 1) (rest.drop name.length) with
            | some (true, r2) =>
                wfScan fuel r2 stack (if stack.isEmpty then roots + 1 else roots)
            | some (false, r2) =>
                wfScan fuel r2 (name :: stack) (if stack.isEmpty then roots + 1 else roots)
            | none => false
  | fuel + 1, c :: rest, stack, roots =>
      if c = '&' then
        if stack.isEmpty then false
        else match entityRest rest with
             | some r => wfScan fuel r stack roots
             | none => false
      else if stack.isEmpty then
        if isJsWs c then wfScan fuel rest stack roots else false
      else wfScan fuel rest stack roots

/-- Modelled from the spec: acceptance by the `DOMParser` well-formedness
gate. -/
def domParserAccepts (s : List Char) : Bool := wfScan (s.length + 1) s [] 0

/-- `parseDocBook` of `src/services/docbookParser.ts`: the well-formedness
pre-check, the tokenization, the reset of the id counter, the search for
the first open token and the top-level `parse` call. -/
def parseDocBook (s : List Char) : Option PChild :=
  if domParserAccepts s then
    let tokens := tokenize s
    if tokens.isEmpty then none
    else
      match tokens.findIdx? (fun t => t.type = .openTag) with
      | none => none
      | some i => (parse tokens i none 0).map (fun r => r.1)
  else none

/-- JavaScript `String.prototype.replace` with a global single-character
pattern: every occurrence of `c` is replaced by `repl` in one left-to-right
pass. -/
def jsReplaceChar (c : Char) (repl : List Char) (s : List Char) : List Char :=
  s.flatMap (fun x => if x = c then repl else [x])

/-- The escaping pipeline of `handleTextChange` in
`src/components/RenderedView.tsx`: ampersand, then less-than, then
greater-than. -/
def escapeXml (s : List Char) : List Char :=
  jsReplaceChar '>' "&gt;".data
    (jsReplaceChar '<' "&lt;".data
      (jsReplaceChar '&' "&amp;".data s))

/-- `handleTextChange` of `src/components/RenderedView.tsx`: splice the
escaped new content over the run's span and record the pending focus
intent `(node.id, cursorPosition)` (the `setEditingState` call). -/
def handleTextChange (code : List Char) (node : PChild)
    (newContent : List Char) (cursorPosition : Nat) :
    List Char × List Char × Nat :=
  (code.take node.startIdx ++ escapeXml newContent ++ code.drop node.endIdx,
   node.pid, cursorPosition)

/-- The word-boundary test of `RenderedTextNode`
(the regex over whitespace and the four punctuation marks). -/
def isBoundaryChar (c : Char) : Bool :=
  isJsWs c || c = '.' || c = ',' || c = ';' || c = '?' || c = '!'

/-- The `wordStart` loop of `RenderedTextNode`: walk left from the relative
position while the previous character is not a boundary (an out-of-range
read is JavaScript `undefined`, which the regex test does not match). -/
def snapLeft (content : List Char) : Nat → Nat
  | 0 => 0
  | k + 1 =>
      match content.get? k with
      | some c => if isBoundaryChar c then k + 1 else snapLeft content k
      | none => snapLeft content k

/-- The `wordEnd` loop of `RenderedTextNode`: walk right while the position
stays below `content.length - 1` and the next character is not a boundary. -/
def snapRightF (content : List Char) : Nat → Nat → Nat
  | 0, wordEnd => wordEnd
  | fuel + 1, wordEnd =>
      if wordEnd + 1 < content.length then
        match content.get? (wordEnd + 1) with
        | some c => if isBoundaryChar c then wordEnd else snapRightF content fuel (wordEnd + 1)
        | none => wordEnd
      else wordEnd

/-- The word-snapping of `RenderedTextNode`: the inclusive pair
`(wordStart, wordEnd)`; the highlighted word is
`content.substring(wordStart, wordEnd + 1)`. -/
def wordSnap (content : List Char) (relativePos : Nat) : Nat × Nat :=
  (snapLeft content relativePos, snapRightF content content.length relativePos)

/-- The boundary set exactly as the specification words it: space, tab,
newline, period, comma, semicolon, question mark, exclamation mark.  Used
only to compare the specified behaviour with the code's `isBoundaryChar`. -/
def specBoundaryChar (c : Char) : Bool :=
  c = ' ' || c = '\t' || c = '\n' || c = '.' || c = ',' || c = ';' ||
  c = '?' || c = '!'

/-- `snapLeft` with the specification's boundary set. -/
def snapLeftSpec (content : List Char) : Nat → Nat
  | 0 => 0
  | k + 1 =>
      match content.get? k with
      | some c => if specBoundaryChar c then k + 1 else snapLeftSpec content k
      | none => snapLeftSpec content k

/-- `snapRightF` with the specification's boundary set. -/
def snapRightSpecF (content : List Char) : Nat → Nat → Nat
  | 0, wordEnd => wordEnd
  | fuel + 1, wordEnd =>
      if wordEnd + 1 < content.length then
        match content.get? (wordEnd + 1) with
        | some c =>
            if specBoundaryChar c then wordEnd
            else snapRightSpecF content fuel (wordEnd + 1)
        | none => wordEnd
      else wordEnd

/-- Word snapping exactly as the specification words it (expansion until a
character of `specBoundaryChar` or the run's edge). -/
def wordSnapSpecSet (content : List Char) (relativePos : Nat) : Nat × Nat :=
  (snapLeftSpec content relativePos,
   snapRightSpecF content content.length relativePos)

mutual

/-- All identifiers of a parsed tree, in document order (a node's opening
tag precedes all of its content, so the node id comes first, then the ids
of the children left to right). -/
def collectIds : PChild → List (List Char)
  | .text i _ _ _ => [i]
  | .node i _ _ children _ _ _ _ => i :: collectIdsList children

/-- `collectIds` over a list of children. -/
def collectIdsList : List PChild → List (List Char)
  | [] => []
  | c :: cs => collectIds c ++ collectIdsList cs

end

/-- Big-endian decimal value of a digit string (helper for decoding the
generated identifiers). -/
def listVal (s : List Char) : Nat :=
  s.foldl (fun a c => a * 10 + (c.toNat - 48)) 0

/-- Strip the `text-` marker from a text-child identifier. -/
def stripTextId (id : List Char) : List Char :=
  match id with
  | 't' :: 'e' :: 'x' :: 't' :: '-' :: r => r
  | other => other

/-- The counter value encoded in a generated identifier. -/
def decodeId (id : List Char) : Nat := listVal (stripTextId id)

/-- Strictly increasing list of naturals. -/
def ascendingNats : List Nat → Bool
  | [] => true
  | [_] => true
  | a :: b :: r => decide (a < b) && ascendingNats (b :: r)

/-- The id-assignment order the claim describes: reading the tree in
document order, the counter values encoded in the identifiers are strictly
increasing. -/
def idsAscendingInDocOrder (root : PChild) : Bool :=
  ascendingNats ((collectIds root).map decodeId)

/-- First close token with the given (case-folded) tag name in a token
list. -/
def firstMatchingClose (tag : List Char) : List Token → Option Token
  | [] => none
  | t :: r =>
      if t.type = .closeTag ∧ t.tag = tag then some t
      else firstMatchingClose tag r

/-- Adjacent sibling ordering: every child ends no later than the next one
starts. -/
def childrenOrdered : List PChild → Bool
  | [] => true
  | [_] => true
  | a :: b :: r => decide (a.endIdx ≤ b.startIdx) && childrenOrdered (b :: r)

mutual

/-- The span invariants of a parsed tree: every node has an ordered span;
siblings are listed in document order without overlap; and whenever a
node's content span is nonempty every child lies inside
`[contentStartIndex, contentEndIndex]`. -/
def spansOK : PChild → Bool
  | .text _ _ s e => decide (s ≤ e)
  | .node _ _ _ children s e cs ce =>
      decide (s ≤ e) && childrenOrdered children &&
      (!(decide (cs < ce)) ||
        children.all (fun k => decide (cs ≤ k.startIdx) && decide (k.endIdx ≤ ce))) &&
      spansOKList children

/-- `spansOK` over a list of children. -/
def spansOKList : List PChild → Bool
  | [] => true
  | c :: cs => spansOK c && spansOKList cs

end

/-- Chained sibling ordering with a floor: every child starts at or after
`lo`, has an ordered span, and ends before the next child starts. -/
def ordFrom (lo : Nat) : List PChild → Bool
  | [] => true
  | k :: r =>
      decide (lo ≤ k.startIdx) && decide (k.startIdx ≤ k.endIdx) &&
      ordFrom k.endIdx r

/-- Strictly ordered token offsets with a floor: every token starts at or
after the floor, has a nonempty span, and ends before the next token
starts.  `tokenize` always produces such a list (proved below). -/
def sortedFrom (p : Nat) : List Token → Bool
  | [] => true
  | t :: r =>
      decide (p ≤ t.startIndex) && decide (t.startIndex < t.endIndex) &&
      sortedFrom t.endIndex r

/-- Inductive statement about `parseF` used by the span lemmas: the result
node starts at its open token, its content starts after it, its spans are
well formed, the next index progresses, and the node ends either at a
matching close token or (for an unterminated open token) at the open
token's own end. -/
def ParseSafeP (fuel : Nat) : Prop :=
  ∀ (tokens : List Token) (index : Nat) (pt : Option (List Char)) (c : Nat)
    (node : PChild) (n c2 : Nat),
    sortedFrom 0 tokens = true →
    parseF fuel tokens index pt c = some (node, n, c2) →
    ∃ tok, tokens.get? index = some tok ∧
      (tok.type = .openTag ∨ tok.type = .selfClosing) ∧
      node.startIdx = tok.startIndex ∧
      node.csIdx = tok.endIndex ∧
      spansOK node = true ∧
      index < n ∧ n ≤ tokens.length ∧
      node.startIdx ≤ node.endIdx ∧
      (∀ t, tokens.get? n = some t → node.endIdx ≤ t.startIndex) ∧
      ((∃ m ct, n = m + 1 ∧ tokens.get? m = some ct ∧ ct.type = .closeTag ∧
          ct.tag = tok.tag ∧ node.ceIdx = ct.startIndex ∧
          node.endIdx = ct.endIndex) ∨
        (tok.type = .openTag ∧ n = tokens.length ∧
          node.ceIdx = tok.endIndex ∧ node.endIdx = tok.endIndex) ∨
        (tok.type = .selfClosing ∧ n = index + 1 ∧
          node.ceIdx = tok.endIndex ∧ node.endIdx = tok.endIndex))

/-- Inductive statement about `childLoopF` used by the span lemmas: the
loop appends well-spanned children in token order, and exits either at a
matching close token (bounding every appended child) or at the end of the
token list with the content/final offsets untouched. -/
def LoopSafeP (fuel : Nat) : Prop :=
  ∀ (tokens : List Token) (tag : List Char) (j : Nat) (acc : List PChild)
    (ce0 fe0 c : Nat) (children : List PChild) (ce fe n c2 : Nat),
    sortedFrom 0 tokens = true →
    j ≤ tokens.length →
    childLoopF fuel tokens tag j acc ce0 fe0 c = some (children, ce, fe, n, c2) →
    ∃ new, children = acc ++ new ∧
      j ≤ n ∧ n ≤ tokens.length ∧
      spansOKList new = true ∧
      (∀ t, tokens.get? j = some t → ordFrom t.startIndex new = true) ∧
      (tokens.get? j = none → new = []) ∧
      ((∃ m ct, n = m + 1 ∧ j ≤ m ∧ tokens.get? m = some ct ∧
          ct.type = .closeTag ∧ ct.tag = tag ∧ ce = ct.startIndex ∧
          fe = ct.endIndex ∧ (∀ k ∈ new, k.endIdx ≤ ct.startIndex)) ∨
        (n = tokens.length ∧ ce = ce0 ∧ fe = fe0))


/-- Inductive statement for the totality of `parseF`: at an open or
self-closing token, with adequate fuel, parsing succeeds and strictly
advances the token index. -/
def ParseTotalP (fuel : Nat) : Prop :=
  ∀ (tokens : List Token) (index : Nat) (pt : Option (List Char)) (c : Nat)
    (tok : Token),
    tokens.get? index = some tok →
    (tok.type = .openTag ∨ tok.type = .selfClosing) →
    2 * (tokens.length - index) + 2 ≤ fuel →
    ∃ node n c2, parseF fuel tokens index pt c = some (node, n, c2) ∧
      index < n ∧ n ≤ tokens.length

/-- Inductive statement for the totality of `childLoopF`: with adequate
fuel the loop always terminates with a result whose next index does not
retreat and stays within the token list. -/
def LoopTotalP (fuel : Nat) : Prop :=
  ∀ (tokens : List Token) (tag : List Char) (j : Nat) (acc : List PChild)
    (ce0 fe0 c : Nat),
    j ≤ tokens.length →
    2 * (tokens.length - j) + 3 ≤ fuel →
    ∃ out, childLoopF fuel tokens tag j acc ce0 fe0 c = some out ∧
      j ≤ out.2.2.2.1 ∧ out.2.2.2.1 ≤ tokens.length


/-- Inductive statement for the id discipline of `parseF`: the counter
strictly increases, the node takes the final counter value (assigned after
all of its descendants), and the identifiers in the subtree decode to
distinct counter values inside the pass interval. -/
def ParseIdsP (fuel : Nat) : Prop :=
  ∀ (tokens : List Token) (index : Nat) (pt : Option (List Char)) (c : Nat)
    (node : PChild) (n c2 : Nat),
    parseF fuel tokens index pt c = some (node, n, c2) →
    c < c2 ∧ node.pid = natStr (c2 - 1) ∧
    (∀ i ∈ (collectIds node).map decodeId, c ≤ i ∧ i < c2) ∧
    ((collectIds node).map decodeId).Nodup

/-- Inductive statement for the id discipline of `childLoopF`. -/
def LoopIdsP (fuel : Nat) : Prop :=
  ∀ (tokens : List Token) (tag : List Char) (j : Nat) (acc : List PChild)
    (ce0 fe0 c : Nat) (children : List PChild) (ce fe n c2 : Nat),
    childLoopF fuel tokens tag j acc ce0 fe0 c = some (children, ce, fe, n, c2) →
    c ≤ c2 ∧ ∃ new, children = acc ++ new ∧
      (∀ i ∈ (collectIdsList new).map decodeId, c ≤ i ∧ i < c2) ∧
      ((collectIdsList new).map decodeId).Nodup


/-- One-pass character-level escaping: the map the specification describes
(ampersand, less-than and greater-than replaced by their entities, all
other characters kept).  Proved below to agree with the source's three
sequential global replacements. -/
def specEscChar (c : Char) : List Char :=
  if c = '&' then "&amp;".data
  else if c = '<' then "&lt;".data
  else if c = '>' then "&gt;".data
  else [c]


lemma sortedFrom_mono {p q : Nat} {l : List Token} (hpq : p ≤ q)
    (h : sortedFrom q l = true) : sortedFrom p l = true := by
  cases l with
  | nil => simp [sortedFrom]
  | cons t r =>
      simp only [sortedFrom, Bool.and_eq_true, decide_eq_true_eq] at h ⊢
      exact ⟨⟨le_trans hpq h.1.1, h.1.2⟩, h.2⟩

lemma length_dropWhile_le (p : Char → Bool) (l : List Char) :
    (l.dropWhile p).length ≤ l.length := by
  have h := List.takeWhile_append_dropWhile (p := p) (l := l)
  calc (l.dropWhile p).length
      ≤ (l.takeWhile p).length + (l.dropWhile p).length := by omega
    _ = l.length := by rw [← List.length_append, h]

lemma jsTrim_length_le (run : List Char) :
    (jsTrim run).length ≤ (run.dropWhile isJsWs).length := by
  unfold jsTrim
  calc ((run.dropWhile isJsWs).reverse.dropWhile isJsWs).reverse.length
      = ((run.dropWhile isJsWs).reverse.dropWhile isJsWs).length :=
        List.length_reverse _
    _ ≤ (run.dropWhile isJsWs).reverse.length := length_dropWhile_le _ _
    _ = (run.dropWhile isJsWs).length := List.length_reverse _

lemma all_ws_of_jsTrim_nil {run : List Char} (h : jsTrim run = []) :
    ∀ c ∈ run, isJsWs c = true := by
  unfold jsTrim at h
  rw [List.reverse_eq_nil_iff, List.dropWhile_eq_nil_iff] at h
  intro c hc
  rw [← List.takeWhile_append_dropWhile (p := isJsWs) (l := run),
    List.mem_append] at hc
  rcases hc with hc | hc
  · exact List.mem_takeWhile_imp hc
  · exact h c (by simpa using hc)

lemma jsTrim_ne_nil_of_not_all {run : List Char}
    (h : ¬ (∀ c ∈ run, isJsWs c = true)) : jsTrim run ≠ [] := by
  intro hnil
  exact h (all_ws_of_jsTrim_nil hnil)

lemma takeWhile_ws_lt_of_trim {run : List Char} (h : (jsTrim run).length > 0) :
    (run.takeWhile isJsWs).length < run.length := by
  by_contra hle
  push_neg at hle
  have hta : run.takeWhile isJsWs = run := by
    have hle2 : run.length ≤ (run.takeWhile isJsWs).length := hle
    have := List.takeWhile_append_dropWhile (p := isJsWs) (l := run)
    have hlen : (run.takeWhile isJsWs).length + (run.dropWhile isJsWs).length
        = run.length := by rw [← List.length_append, this]
    have hdw : run.dropWhile isJsWs = [] := by
      have : (run.dropWhile isJsWs).length = 0 := by omega
      exact List.length_eq_zero.mp this
    rw [hdw, List.append_nil] at this
    exact this
  have hall : ∀ c ∈ run, isJsWs c = true := by
    intro c hc
    exact List.mem_takeWhile_imp (by rw [hta]; exact hc)
  have : jsTrim run = [] := by
    unfold jsTrim
    rw [List.reverse_eq_nil_iff, List.dropWhile_eq_nil_iff]
    intro x hx
    have hx2 : x ∈ run.dropWhile isJsWs := by simpa using hx
    have : run.dropWhile isJsWs = [] :=
      List.dropWhile_eq_nil_iff.mpr hall
    rw [this] at hx2
    cases hx2
  rw [this] at h
  simp at h

lemma sortedFrom_textTok {pos : Nat} {run : List Char} {rest : List Token}
    (hrun : run ≠ []) (hrest : sortedFrom (pos + run.length) rest = true) :
    sortedFrom pos (textTok pos run ++ rest) = true := by
  unfold textTok
  by_cases htrim : (jsTrim run).length > 0
  · simp only [htrim, if_pos]
    have hk := takeWhile_ws_lt_of_trim htrim
    simp only [List.cons_append, List.nil_append, sortedFrom,
      Bool.and_eq_true, decide_eq_true_eq]
    exact ⟨⟨by omega, by omega⟩, hrest⟩
  · simp only [htrim, if_neg, if_pos (List.length_pos.mpr hrun)]
    have hlen : 0 < run.length := List.length_pos.mpr hrun
    simp only [List.cons_append, List.nil_append, sortedFrom,
      Bool.and_eq_true, decide_eq_true_eq]
    exact ⟨⟨Nat.le_refl _, by omega⟩, hrest⟩

lemma matchComment_len {s : List Char} {o : List Char × Nat}
    (h : matchComment s = some o) : 1 ≤ o.2 := by
  unfold matchComment at h
  split at h <;> simp_all
  rcases h with ⟨a, b, hab, h2⟩
  omega

lemma matchClose_len {s : List Char} {o : List Char × Nat}
    (h : matchClose s = some o) : 1 ≤ o.2 := by
  unfold matchClose at h
  split at h
  · dsimp only at h
    split at h
    · exact absurd h (by simp)
    · split at h
      · cases h
        simp
      · exact absurd h (by simp)
  · exact absurd h (by simp)

lemma matchOpen_len {s : List Char}
    {o : List Char × List (List Char × List Char) × Bool × Nat}
    (h : matchOpen s = some o) : 1 ≤ o.2.2.2 := by
  unfold matchOpen at h
  split at h
  · dsimp only at h
    split at h
    · exact absurd h (by simp)
    · split at h
      · cases h
        simp
      · cases h
        simp
      · exact absurd h (by simp)
  · exact absurd h (by simp)

lemma tokenizeF_sortedFrom : ∀ (fuel : Nat) (s : List Char) (pos : Nat),
    sortedFrom pos (tokenizeF fuel s pos) = true := by
  intro fuel
  induction fuel with
  | zero => intro s pos; simp [tokenizeF, sortedFrom]
  | succ fuel ih =>
      intro s pos
      match s with
      | [] => simp [tokenizeF, sortedFrom]
      | c :: rest =>
          by_cases hc : c = '<'
          · simp only [tokenizeF, hc, if_pos]
            rcases hcm : matchComment ('<' :: rest) with _ | ⟨content, len⟩
            · rcases hcl : matchClose ('<' :: rest) with _ | ⟨tag, len⟩
              · rcases hop : matchOpen ('<' :: rest) with _ | ⟨tag, attrs, sc, len⟩
                · simp only
                  exact sortedFrom_mono (Nat.le_succ pos) (ih rest (pos + 1))
                · simp only [sortedFrom, Bool.and_eq_true, decide_eq_true_eq]
                  have := matchOpen_len hop
                  exact ⟨⟨Nat.le_refl _, by simp at this ⊢; omega⟩, ih _ _⟩
              · simp only [sortedFrom, Bool.and_eq_true, decide_eq_true_eq]
                have := matchClose_len hcl
                exact ⟨⟨Nat.le_refl _, by simp at this ⊢; omega⟩, ih _ _⟩
            · simp only [sortedFrom, Bool.and_eq_true, decide_eq_true_eq]
              have := matchComment_len hcm
              exact ⟨⟨Nat.le_refl _, by simp at this ⊢; omega⟩, ih _ _⟩
          · simp only [tokenizeF, hc, if_neg, if_false]
            have hne : (c :: rest).takeWhile (fun x => x ≠ '<') ≠ [] := by
              simp [List.takeWhile_cons, hc]
            exact sortedFrom_textTok hne (ih _ _)

lemma tokenize_sorted (s : List Char) : sortedFrom 0 (tokenize s) = true :=
  tokenizeF_sortedFrom _ s 0

lemma sorted_floor : ∀ {l : List Token} {p i : Nat} {t : Token},
    sortedFrom p l = true → l.get? i = some t →
    p ≤ t.startIndex ∧ t.startIndex < t.endIndex := by
  intro l
  induction l with
  | nil => intro p i t _ hg; simp at hg
  | cons a r ih =>
      intro p i t hs hg
      simp only [sortedFrom, Bool.and_eq_true, decide_eq_true_eq] at hs
      cases i with
      | zero =>
          simp only [List.get?_cons_zero, Option.some.injEq] at hg
          subst hg
          exact ⟨hs.1.1, hs.1.2⟩
      | succ i =>
          simp only [List.get?_cons_succ] at hg
          have h2 := ih hs.2 hg
          exact ⟨by omega, h2.2⟩

lemma sorted_drop : ∀ {l : List Token} {p i : Nat} {t : Token},
    sortedFrom p l = true → l.get? i = some t →
    sortedFrom t.endIndex (l.drop (i + 1)) = true := by
  intro l
  induction l with
  | nil => intro p i t _ hg; simp at hg
  | cons a r ih =>
      intro p i t hs hg
      simp only [sortedFrom, Bool.and_eq_true, decide_eq_true_eq] at hs
      cases i with
      | zero =>
          simp only [List.get?_cons_zero, Option.some.injEq] at hg
          subst hg
          simpa using hs.2
      | succ i =>
          simp only [List.get?_cons_succ] at hg
          simpa using ih hs.2 hg

lemma sorted_le {l : List Token} {p i j : Nat} {t t' : Token}
    (hs : sortedFrom p l = true) (hij : i < j)
    (hi : l.get? i = some t) (hj : l.get? j = some t') :
    t.endIndex ≤ t'.startIndex := by
  have hd := sorted_drop hs hi
  have hj2 : (l.drop (i + 1)).get? (j - i - 1) = some t' := by
    rw [List.get?_drop]
    have : i + 1 + (j - i - 1) = j := by omega
    rw [this]
    exact hj
  exact (sorted_floor hd hj2).1

lemma sorted_start_le {l : List Token} {p i j : Nat} {t t' : Token}
    (hs : sortedFrom p l = true) (hij : i ≤ j)
    (hi : l.get? i = some t) (hj : l.get? j = some t') :
    t.startIndex ≤ t'.startIndex := by
  rcases Nat.eq_or_lt_of_le hij with rfl | hlt
  · rw [hi] at hj
    cases hj
    exact Nat.le_refl _
  · have h1 := (sorted_floor hs hi).2
    have h2 := sorted_le hs hlt hi hj
    omega

lemma ordFrom_mono {lo lo' : Nat} {l : List PChild} (h : lo' ≤ lo)
    (ho : ordFrom lo l = true) : ordFrom lo' l = true := by
  cases l with
  | nil => simp [ordFrom]
  | cons k r =>
      simp only [ordFrom, Bool.and_eq_true, decide_eq_true_eq] at ho ⊢
      exact ⟨⟨by omega, ho.1.2⟩, ho.2⟩

lemma childrenOrdered_of_ordFrom : ∀ {l : List PChild} {lo : Nat},
    ordFrom lo l = true → childrenOrdered l = true := by
  intro l
  induction l with
  | nil => intro lo _; simp [childrenOrdered]
  | cons k r ih =>
      intro lo ho
      simp only [ordFrom, Bool.and_eq_true, decide_eq_true_eq] at ho
      cases r with
      | nil => simp [childrenOrdered]
      | cons k2 r2 =>
          have h2 := ho.2
          simp only [ordFrom, Bool.and_eq_true, decide_eq_true_eq] at h2
          simp only [childrenOrdered, Bool.and_eq_true, decide_eq_true_eq]
          exact ⟨h2.1.1, ih ho.2⟩

lemma ordFrom_mem_le : ∀ {l : List PChild} {lo : Nat},
    ordFrom lo l = true → ∀ k ∈ l, lo ≤ k.startIdx ∧ k.startIdx ≤ k.endIdx := by
  intro l
  induction l with
  | nil => intro lo _ k hk; cases hk
  | cons a r ih =>
      intro lo ho k hk
      simp only [ordFrom, Bool.and_eq_true, decide_eq_true_eq] at ho
      rcases List.mem_cons.mp hk with rfl | hk2
      · exact ⟨ho.1.1, ho.1.2⟩
      · have := ih ho.2 k hk2
        omega

lemma spansOKList_append {a b : List PChild} (ha : spansOKList a = true)
    (hb : spansOKList b = true) : spansOKList (a ++ b) = true := by
  induction a with
  | nil => simpa using hb
  | cons x r ih =>
      simp only [spansOKList, Bool.and_eq_true] at ha
      simp only [List.cons_append, spansOKList, Bool.and_eq_true]
      exact ⟨ha.1, ih ha.2⟩

theorem parse_loop_safety : ∀ fuel : Nat, ParseSafeP fuel ∧ LoopSafeP fuel := by
  intro fuel
  induction fuel with
  | zero =>
      constructor
      · intro tokens index pt c node n c2 _ hp
        simp [parseF] at hp
      · intro tokens tag j acc ce0 fe0 c children ce fe n c2 _ _ hp
        simp [childLoopF] at hp
  | succ fuel ih =>
      obtain ⟨ihp, ihl⟩ := ih
      constructor
      · -- ParseSafeP (fuel + 1)
        intro tokens index pt c node n c2 hs hp
        rcases hget : tokens.get? index with _ | tok
        · rw [parseF, hget] at hp
          simp at hp
        · rw [parseF, hget] at hp
          dsimp only at hp
          by_cases htype : tok.type = .openTag ∨ tok.type = .selfClosing
          · rw [dif_pos htype] at hp
            have hidx : index < tokens.length := by
              have := List.get?_eq_some.mp hget
              exact this.1
            have hflo := sorted_floor hs hget
            by_cases hopen : tok.type = .openTag
            · rw [if_pos hopen] at hp
              rcases hloop : childLoopF fuel tokens tok.tag (index + 1) []
                  tok.endIndex tok.endIndex c with _ | ⟨ch, lce, lfe, ln, lc⟩
              · rw [hloop] at hp; simp at hp
              · rw [hloop] at hp
                cases hp
                have hj1 : index + 1 ≤ tokens.length := hidx
                obtain ⟨new, hchd, hjn, hnL, hsok, hord, hnone, hexit⟩ :=
                  ihl tokens tok.tag (index + 1) [] tok.endIndex tok.endIndex c
                    ch lce lfe n lc hs hj1 hloop
                simp only [List.nil_append] at hchd
                subst hchd
                -- here the children list is named ch
                have hordc : childrenOrdered ch = true := by
                  rcases hget1 : tokens.get? (index + 1) with _ | t1
                  · rw [hnone hget1]; rfl
                  · exact childrenOrdered_of_ordFrom (hord t1 hget1)
                have hmem : ∀ k ∈ ch, tok.endIndex ≤ k.startIdx ∧
                    k.startIdx ≤ k.endIdx := by
                  intro k hk
                  rcases hget1 : tokens.get? (index + 1) with _ | t1
                  · rw [hnone hget1] at hk; cases hk
                  · have h1 := ordFrom_mem_le (hord t1 hget1) k hk
                    have h2 := sorted_le hs (Nat.lt_succ_self index) hget hget1
                    omega
                rcases hexit with ⟨m, ct, hnm, hjm, hgm, hctt, hctg, hce, hfe, hbnd⟩ |
                  ⟨hnL2, hce, hfe⟩
                · -- a matching close token was found at index m
                  subst hce; subst hfe; subst hnm
                  have hmf := sorted_floor hs hgm
                  have hoc : tok.endIndex ≤ ct.startIndex :=
                    sorted_le hs (by omega) hget hgm
                  refine ⟨tok, rfl, htype, rfl, rfl, ?_, by omega, hnL, ?_, ?_, ?_⟩
                  · simp only [spansOK, Bool.and_eq_true, PChild.startIdx,
                      PChild.endIdx, decide_eq_true_eq]
                    refine ⟨⟨⟨by omega, hordc⟩, ?_⟩, hsok⟩
                    refine Bool.or_eq_true _ _ |>.mpr (Or.inr ?_)
                    rw [List.all_eq_true]
                    intro k hk
                    simp only [Bool.and_eq_true, decide_eq_true_eq]
                    exact ⟨(hmem k hk).1, hbnd k hk⟩
                  · simp only [PChild.startIdx, PChild.endIdx]
                    omega
                  · intro t ht
                    simp only [PChild.endIdx]
                    exact sorted_le hs (Nat.lt_succ_self m) hgm ht
                  · exact Or.inl ⟨m, ct, rfl, hgm, hctt, hctg, rfl, rfl⟩
                · -- the loop ran off the end of the tokens
                  subst hce; subst hfe
                  refine ⟨tok, rfl, htype, rfl, rfl, ?_, by omega, hnL, ?_, ?_, ?_⟩
                  · simp only [spansOK, Bool.and_eq_true, PChild.startIdx,
                      PChild.endIdx, decide_eq_true_eq]
                    refine ⟨⟨⟨by omega, hordc⟩, ?_⟩, hsok⟩
                    refine Bool.or_eq_true _ _ |>.mpr (Or.inl ?_)
                    simp
                  · simp only [PChild.startIdx, PChild.endIdx]
                    omega
                  · intro t ht
                    rw [List.get?_eq_none.mpr (by omega)] at ht
                    cases ht
                  · exact Or.inr (Or.inl ⟨hopen, hnL2, rfl, rfl⟩)
            · -- self-closing token
              rw [if_neg hopen] at hp
              cases hp
              have hsc : tok.type = .selfClosing := htype.resolve_left hopen
              refine ⟨tok, rfl, htype, rfl, rfl, ?_, Nat.lt_succ_self _, hidx, ?_, ?_, ?_⟩
              · simp only [spansOK, Bool.and_eq_true, PChild.startIdx,
                  PChild.endIdx, decide_eq_true_eq]
                refine ⟨⟨⟨by omega, rfl⟩, ?_⟩, rfl⟩
                refine Bool.or_eq_true _ _ |>.mpr (Or.inl ?_)
                simp
              · simp only [PChild.startIdx, PChild.endIdx]
                omega
              · intro t ht
                simp only [PChild.endIdx]
                exact sorted_le hs (Nat.lt_succ_self index) hget ht
              · exact Or.inr (Or.inr ⟨hsc, rfl, rfl, rfl⟩)
          · rw [dif_neg htype] at hp
            simp at hp
      · -- LoopSafeP (fuel + 1)
        intro tokens tag j acc ce0 fe0 c children ce fe n c2 hs hjL hp
        rcases hget : tokens.get? j with _ | tk
        · rw [childLoopF, hget] at hp
          cases hp
          have hj : tokens.length ≤ j := List.get?_eq_none.mp hget
          refine ⟨[], by simp, le_refl _, hjL, rfl, fun t ht => rfl, fun _ => rfl,
            Or.inr ⟨by omega, rfl, rfl⟩⟩
        · rw [childLoopF, hget] at hp
          dsimp only at hp
          have hjlt : j < tokens.length := (List.get?_eq_some.mp hget).1
          have hkf := sorted_floor hs hget
          by_cases hcm : tk.type = .closeTag ∧ tk.tag = tag
          · rw [if_pos hcm] at hp
            cases hp
            refine ⟨[], by simp, Nat.le_succ _, hjlt, rfl, fun t ht => rfl,
              fun hn0 => rfl, Or.inl ⟨j, tk, rfl, le_refl _, hget, hcm.1, hcm.2,
                rfl, rfl, fun k hk => by cases hk⟩⟩
          · rw [if_neg hcm] at hp
            by_cases htx : tk.type = .text
            · rw [if_pos htx] at hp
              by_cases hct : tk.content ≠ []
              · rw [if_pos hct] at hp
                obtain ⟨new', hchd, hjn, hnL, hsok', hord', hnone', hexit'⟩ :=
                  ihl tokens tag (j + 1)
                    (acc ++ [.text (txtId c) tk.content tk.startIndex tk.endIndex])
                    ce0 fe0 (c + 1) children ce fe n c2 hs hjlt hp
                refine ⟨.text (txtId c) tk.content tk.startIndex tk.endIndex :: new',
                  by rw [hchd]; simp, by omega, hnL, ?_, ?_, ?_, ?_⟩
                · simp only [spansOKList, spansOK, Bool.and_eq_true, decide_eq_true_eq]
                  exact ⟨by omega, hsok'⟩
                · intro t ht
                  cases ht
                  simp only [ordFrom, PChild.startIdx, PChild.endIdx,
                    Bool.and_eq_true, decide_eq_true_eq]
                  refine ⟨⟨le_refl _, by omega⟩, ?_⟩
                  rcases hget1 : tokens.get? (j + 1) with _ | t1
                  · rw [hnone' hget1]; rfl
                  · exact ordFrom_mono (sorted_le hs (Nat.lt_succ_self j) hget hget1)
                      (hord' t1 hget1)
                · intro hn0
                  simp at hn0
                · rcases hexit' with ⟨m, ct, hnm, hjm, hgm, hctt, hctg, hce, hfe, hbnd⟩ |
                    hrest
                  · refine Or.inl ⟨m, ct, hnm, by omega, hgm, hctt, hctg, hce, hfe, ?_⟩
                    intro k hk
                    rcases List.mem_cons.mp hk with rfl | hk2
                    · simp only [PChild.endIdx]
                      exact sorted_le hs (by omega) hget hgm
                    · exact hbnd k hk2
                  · exact Or.inr hrest
              · rw [if_neg hct] at hp
                obtain ⟨new', hchd, hjn, hnL, hsok', hord', hnone', hexit'⟩ :=
                  ihl tokens tag (j + 1) acc ce0 fe0 c children ce fe n c2 hs hjlt hp
                refine ⟨new', hchd, by omega, hnL, hsok', ?_, ?_, ?_⟩
                · intro t ht
                  cases ht
                  rcases hget1 : tokens.get? (j + 1) with _ | t1
                  · rw [hnone' hget1]; rfl
                  · have h2 := sorted_le hs (Nat.lt_succ_self j) hget hget1
                    exact ordFrom_mono (by omega) (hord' t1 hget1)
                · intro hn0
                  simp at hn0
                · rcases hexit' with ⟨m, ct, hnm, hjm, hgm, hctt, hctg, hce, hfe, hbnd⟩ |
                    hrest
                  · exact Or.inl ⟨m, ct, hnm, by omega, hgm, hctt, hctg, hce, hfe, hbnd⟩
                  · exact Or.inr hrest
            · rw [if_neg htx] at hp
              by_cases hoc : tk.type = .openTag ∨ tk.type = .selfClosing
              · rw [if_pos hoc] at hp
                rcases hpp : parseF fuel tokens j (some tag) c with _ | ⟨child, pn, pc⟩
                · rw [hpp] at hp; simp at hp
                · rw [hpp] at hp
                  obtain ⟨tok', hget', htype', hstart', hcs', hsokc, hjlt2, hpnL,
                    hse', hbound', hexitp⟩ := ihp tokens j (some tag) c child pn pc hs hpp
                  rw [hget] at hget'; cases hget'
                  obtain ⟨new', hchd, hjn, hnL, hsok', hord', hnone', hexit'⟩ :=
                    ihl tokens tag pn (acc ++ [child]) ce0 fe0 pc children ce fe n c2
                      hs hpnL hp
                  refine ⟨child :: new', by rw [hchd]; simp, by omega, hnL, ?_, ?_, ?_, ?_⟩
                  · simp only [spansOKList, Bool.and_eq_true]
                    exact ⟨hsokc, hsok'⟩
                  · intro t ht
                    cases ht
                    simp only [ordFrom, Bool.and_eq_true, decide_eq_true_eq]
                    refine ⟨⟨by omega, hse'⟩, ?_⟩
                    rcases hget1 : tokens.get? pn with _ | t1
                    · rw [hnone' hget1]; rfl
                    · exact ordFrom_mono (hbound' t1 hget1) (hord' t1 hget1)
                  · intro hn0
                    simp at hn0
                  · rcases hexit' with ⟨m, ct, hnm, hjm, hgm, hctt, hctg, hce, hfe, hbnd⟩ |
                      hrest
                    · refine Or.inl ⟨m, ct, hnm, by omega, hgm, hctt, hctg, hce, hfe, ?_⟩
                      intro k hk
                      rcases List.mem_cons.mp hk with rfl | hk2
                      · have hmlt : m < tokens.length := (List.get?_eq_some.mp hgm).1
                        have hpnlt : pn < tokens.length := by omega
                        rcases hgetpn : tokens.get? pn with _ | tpn
                        · have := List.get?_eq_none.mp hgetpn
                          omega
                        · have h1 := hbound' tpn hgetpn
                          have h2 := sorted_start_le hs hjm hgetpn hgm
                          omega
                      · exact hbnd k hk2
                    · exact Or.inr hrest
              · rw [if_neg hoc] at hp
                obtain ⟨new', hchd, hjn, hnL, hsok', hord', hnone', hexit'⟩ :=
                  ihl tokens tag (j + 1) acc ce0 fe0 c children ce fe n c2 hs hjlt hp
                refine ⟨new', hchd, by omega, hnL, hsok', ?_, ?_, ?_⟩
                · intro t ht
                  cases ht
                  rcases hget1 : tokens.get? (j + 1) with _ | t1
                  · rw [hnone' hget1]; rfl
                  · have h2 := sorted_le hs (Nat.lt_succ_self j) hget hget1
                    exact ordFrom_mono (by omega) (hord' t1 hget1)
                · intro hn0
                  simp at hn0
                · rcases hexit' with ⟨m, ct, hnm, hjm, hgm, hctt, hctg, hce, hfe, hbnd⟩ |
                    hrest
                  · exact Or.inl ⟨m, ct, hnm, by omega, hgm, hctt, hctg, hce, hfe, hbnd⟩
                  · exact Or.inr hrest

theorem parse_loop_total : ∀ fuel : Nat, ParseTotalP fuel ∧ LoopTotalP fuel := by
  intro fuel
  induction fuel with
  | zero =>
      constructor
      · intro tokens index pt c tok _ _ hfuel
        omega
      · intro tokens tag j acc ce0 fe0 c _ hfuel
        omega
  | succ fuel ih =>
      obtain ⟨ihp, ihl⟩ := ih
      constructor
      · intro tokens index pt c tok hget htype hfuel
        have hidx : index < tokens.length := (List.get?_eq_some.mp hget).1
        rw [parseF, hget]
        dsimp only
        rw [dif_pos htype]
        by_cases hopen : tok.type = .openTag
        · rw [if_pos hopen]
          obtain ⟨out, hloop, hjn, hnL⟩ :=
            ihl tokens tok.tag (index + 1) [] tok.endIndex tok.endIndex c
              hidx (by omega)
          obtain ⟨ch, lce, lfe, ln, lc⟩ := out
          rw [hloop]
          exact ⟨_, ln, lc + 1, rfl, by simp at hjn ⊢; omega, by simpa using hnL⟩
        · rw [if_neg hopen]
          exact ⟨_, index + 1, c + 1, rfl, Nat.lt_succ_self _, hidx⟩
      · intro tokens tag j acc ce0 fe0 c hjL hfuel
        rcases hget : tokens.get? j with _ | tk
        · rw [childLoopF, hget]
          exact ⟨(acc, ce0, fe0, j, c), rfl, le_refl _, hjL⟩
        · have hjlt : j < tokens.length := (List.get?_eq_some.mp hget).1
          rw [childLoopF, hget]
          dsimp only
          by_cases hcm : tk.type = .closeTag ∧ tk.tag = tag
          · rw [if_pos hcm]
            exact ⟨(acc, tk.startIndex, tk.endIndex, j + 1, c), rfl, Nat.le_succ _, hjlt⟩
          · rw [if_neg hcm]
            by_cases htx : tk.type = .text
            · rw [if_pos htx]
              by_cases hct : tk.content ≠ []
              · rw [if_pos hct]
                obtain ⟨out, hloop, hjn, hnL⟩ :=
                  ihl tokens tag (j + 1)
                    (acc ++ [.text (txtId c) tk.content tk.startIndex tk.endIndex])
                    ce0 fe0 (c + 1) hjlt (by omega)
                exact ⟨out, hloop, by omega, hnL⟩
              · rw [if_neg hct]
                obtain ⟨out, hloop, hjn, hnL⟩ :=
                  ihl tokens tag (j + 1) acc ce0 fe0 c hjlt (by omega)
                exact ⟨out, hloop, by omega, hnL⟩
            · rw [if_neg htx]
              by_cases hoc : tk.type = .openTag ∨ tk.type = .selfClosing
              · rw [if_pos hoc]
                obtain ⟨node, pn, pc, hpp, hjpn, hpnL⟩ :=
                  ihp tokens j (some tag) c tk hget hoc (by omega)
                rw [hpp]
                obtain ⟨out, hloop, hjn, hnL⟩ :=
                  ihl tokens tag pn (acc ++ [node]) ce0 fe0 pc hpnL (by omega)
                exact ⟨out, hloop, by omega, hnL⟩
              · rw [if_neg hoc]
                obtain ⟨out, hloop, hjn, hnL⟩ :=
                  ihl tokens tag (j + 1) acc ce0 fe0 c hjlt (by omega)
                exact ⟨out, hloop, by omega, hnL⟩

lemma parse_total {tokens : List Token} {index : Nat} {pt : Option (List Char)}
    {c : Nat} {tok : Token} (hget : tokens.get? index = some tok)
    (htype : tok.type = .openTag ∨ tok.type = .selfClosing) :
    ∃ node n c2, parse tokens index pt c = some (node, n, c2) ∧
      index < n ∧ n ≤ tokens.length :=
  (parse_loop_total (parseFuel tokens)).1 tokens index pt c tok hget htype
    (by unfold parseFuel; omega)

lemma parse_safe {tokens : List Token} {index : Nat} {pt : Option (List Char)}
    {c : Nat} {node : PChild} {n c2 : Nat} (hs : sortedFrom 0 tokens = true)
    (hp : parse tokens index pt c = some (node, n, c2)) :
    ∃ tok, tokens.get? index = some tok ∧
      (tok.type = .openTag ∨ tok.type = .selfClosing) ∧
      node.startIdx = tok.startIndex ∧
      node.csIdx = tok.endIndex ∧
      spansOK node = true ∧
      index < n ∧ n ≤ tokens.length ∧
      node.startIdx ≤ node.endIdx ∧
      (∀ t, tokens.get? n = some t → node.endIdx ≤ t.startIndex) ∧
      ((∃ m ct, n = m + 1 ∧ tokens.get? m = some ct ∧ ct.type = .closeTag ∧
          ct.tag = tok.tag ∧ node.ceIdx = ct.startIndex ∧
          node.endIdx = ct.endIndex) ∨
        (tok.type = .openTag ∧ n = tokens.length ∧
          node.ceIdx = tok.endIndex ∧ node.endIdx = tok.endIndex) ∨
        (tok.type = .selfClosing ∧ n = index + 1 ∧
          node.ceIdx = tok.endIndex ∧ node.endIdx = tok.endIndex)) :=
  (parse_loop_safety (parseFuel tokens)).1 tokens index pt c node n c2 hs hp

lemma natCharsAux_val : ∀ (f n a : Nat), n ≤ f →
    List.foldl (fun a c => a * 10 + (c.toNat - 48)) a (natCharsAux f n) =
      a * 10 ^ (natCharsAux f n).length + n := by
  intro f
  induction f with
  | zero =>
      intro n a hn
      interval_cases n
      simp [natCharsAux]
  | succ f ih =>
      intro n a hn
      match n with
      | 0 => simp [natCharsAux]
      | m + 1 =>
          have hq : (m + 1) / 10 ≤ f := by
            have := Nat.div_lt_self (Nat.succ_pos m) (by norm_num : 1 < 10)
            omega
          have hr : (m + 1) % 10 < 10 := Nat.mod_lt _ (by norm_num)
          have htoNat : (decDigit ((m + 1) % 10)).toNat = 48 + (m + 1) % 10 := by
            interval_cases h : (m + 1) % 10 <;> rfl
          rw [natCharsAux, List.foldl_append, ih _ a hq]
          simp only [List.foldl, List.length_append, List.length_cons,
            List.length_nil, htoNat]
          have hmod := Nat.div_add_mod (m + 1) 10
          ring_nf
          omega

lemma listVal_natStr (n : Nat) : listVal (natStr n) = n := by
  unfold natStr listVal
  by_cases h : n = 0
  · subst h; rfl
  · rw [if_neg h]
    have := natCharsAux_val n n 0 (le_refl n)
    simpa using this

lemma natStr_digits : ∀ {n : Nat} {c : Char}, c ∈ natStr n →
    48 ≤ c.toNat ∧ c.toNat ≤ 57 := by
  have haux : ∀ (f n : Nat) (c : Char), c ∈ natCharsAux f n →
      48 ≤ c.toNat ∧ c.toNat ≤ 57 := by
    intro f
    induction f with
    | zero =>
        intro n c hc
        match n with
        | 0 => simp [natCharsAux] at hc
        | m + 1 => simp [natCharsAux] at hc
    | succ f ih =>
        intro n c hc
        match n with
        | 0 => simp [natCharsAux] at hc
        | m + 1 =>
            rw [natCharsAux, List.mem_append] at hc
            rcases hc with hc | hc
            · exact ih _ c hc
            · simp only [List.mem_singleton] at hc
              subst hc
              have hr : (m + 1) % 10 < 10 := Nat.mod_lt _ (by norm_num)
              have : (decDigit ((m + 1) % 10)).toNat = 48 + (m + 1) % 10 := by
                interval_cases h : (m + 1) % 10 <;> rfl
              omega
  intro n c hc
  unfold natStr at hc
  by_cases h : n = 0
  · subst h
    simp at hc
    subst hc
    exact ⟨by decide, by decide⟩
  · rw [if_neg h] at hc
    exact haux n n c hc

lemma stripTextId_natStr (n : Nat) : stripTextId (natStr n) = natStr n := by
  unfold stripTextId
  split
  · next heq =>
      exfalso
      have : 't' ∈ natStr n := by rw [heq]; simp
      have h2 := natStr_digits this
      have h3 : ('t').toNat = 116 := by decide
      omega
  · rfl

lemma decodeId_natStr (n : Nat) : decodeId (natStr n) = n := by
  rw [decodeId, stripTextId_natStr, listVal_natStr]

lemma decodeId_txtId (n : Nat) : decodeId (txtId n) = n := by
  show listVal (stripTextId ('t' :: 'e' :: 'x' :: 't' :: '-' :: natStr n)) = n
  rw [show stripTextId ('t' :: 'e' :: 'x' :: 't' :: '-' :: natStr n) = natStr n from rfl,
    listVal_natStr]

theorem parse_loop_ids : ∀ fuel : Nat, ParseIdsP fuel ∧ LoopIdsP fuel := by
  intro fuel
  induction fuel with
  | zero =>
      constructor
      · intro tokens index pt c node n c2 hp
        simp [parseF] at hp
      · intro tokens tag j acc ce0 fe0 c children ce fe n c2 hp
        simp [childLoopF] at hp
  | succ fuel ih =>
      obtain ⟨ihp, ihl⟩ := ih
      constructor
      · -- ParseIdsP (fuel + 1)
        intro tokens index pt c node n c2 hp
        rcases hget : tokens.get? index with _ | tok
        · rw [parseF, hget] at hp
          simp at hp
        · rw [parseF, hget] at hp
          dsimp only at hp
          by_cases htype : tok.type = .openTag ∨ tok.type = .selfClosing
          · rw [dif_pos htype] at hp
            by_cases hopen : tok.type = .openTag
            · rw [if_pos hopen] at hp
              rcases hloop : childLoopF fuel tokens tok.tag (index + 1) []
                  tok.endIndex tok.endIndex c with _ | ⟨ch, lce, lfe, ln, lc⟩
              · rw [hloop] at hp; simp at hp
              · rw [hloop] at hp
                cases hp
                obtain ⟨hcc, new, hchd, hbnd, hnd⟩ :=
                  ihl tokens tok.tag (index + 1) [] tok.endIndex tok.endIndex c
                    ch lce lfe n lc hloop
                simp only [List.nil_append] at hchd
                subst hchd
                refine ⟨by omega, ?_, ?_, ?_⟩
                · simp [PChild.pid]
                · intro i hi
                  simp only [collectIds, List.map_cons, List.mem_cons,
                    decodeId_natStr] at hi
                  rcases hi with rfl | hi
                  · omega
                  · have := hbnd i hi
                    omega
                · simp only [collectIds, List.map_cons, List.nodup_cons,
                    decodeId_natStr]
                  refine ⟨?_, hnd⟩
                  intro hmem
                  have := hbnd lc hmem
                  omega
            · rw [if_neg hopen] at hp
              cases hp
              refine ⟨Nat.lt_succ_self _, by simp [PChild.pid], ?_, ?_⟩
              · intro i hi
                simp only [collectIds, collectIdsList, List.map_cons,
                  List.map_nil, List.mem_singleton, decodeId_natStr] at hi
                omega
              · simp [collectIds, collectIdsList, decodeId_natStr]
          · rw [dif_neg htype] at hp
            simp at hp
      · -- LoopIdsP (fuel + 1)
        intro tokens tag j acc ce0 fe0 c children ce fe n c2 hp
        rcases hget : tokens.get? j with _ | tk
        · rw [childLoopF, hget] at hp
          cases hp
          exact ⟨le_refl _, [], by simp, fun i hi => by simp [collectIdsList] at hi,
            by simp [collectIdsList]⟩
        · rw [childLoopF, hget] at hp
          dsimp only at hp
          by_cases hcm : tk.type = .closeTag ∧ tk.tag = tag
          · rw [if_pos hcm] at hp
            cases hp
            exact ⟨le_refl _, [], by simp, fun i hi => by simp [collectIdsList] at hi,
              by simp [collectIdsList]⟩
          · rw [if_neg hcm] at hp
            by_cases htx : tk.type = .text
            · rw [if_pos htx] at hp
              by_cases hct : tk.content ≠ []
              · rw [if_pos hct] at hp
                obtain ⟨hcc, new', hchd, hbnd', hnd'⟩ :=
                  ihl tokens tag (j + 1)
                    (acc ++ [.text (txtId c) tk.content tk.startIndex tk.endIndex])
                    ce0 fe0 (c + 1) children ce fe n c2 hp
                refine ⟨by omega,
                  .text (txtId c) tk.content tk.startIndex tk.endIndex :: new',
                  by rw [hchd]; simp, ?_, ?_⟩
                · intro i hi
                  simp only [collectIdsList, collectIds, List.singleton_append,
                    List.map_cons, List.mem_cons, decodeId_txtId] at hi
                  rcases hi with rfl | hi
                  · omega
                  · have := hbnd' i hi
                    omega
                · simp only [collectIdsList, collectIds, List.singleton_append,
                    List.map_cons, List.nodup_cons, decodeId_txtId]
                  refine ⟨?_, hnd'⟩
                  intro hmem
                  have := hbnd' c hmem
                  omega
              · rw [if_neg hct] at hp
                obtain ⟨hcc, new', hchd, hbnd', hnd'⟩ :=
                  ihl tokens tag (j + 1) acc ce0 fe0 c children ce fe n c2 hp
                exact ⟨hcc, new', hchd, hbnd', hnd'⟩
            · rw [if_neg htx] at hp
              by_cases hoc : tk.type = .openTag ∨ tk.type = .selfClosing
              · rw [if_pos hoc] at hp
                rcases hpp : parseF fuel tokens j (some tag) c with _ | ⟨child, pn, pc⟩
                · rw [hpp] at hp; simp at hp
                · rw [hpp] at hp
                  obtain ⟨hcpc, hpid, hbndc, hndc⟩ :=
                    ihp tokens j (some tag) c child pn pc hpp
                  obtain ⟨hcc, new', hchd, hbnd', hnd'⟩ :=
                    ihl tokens tag pn (acc ++ [child]) ce0 fe0 pc children ce fe n c2 hp
                  refine ⟨by omega, child :: new', by rw [hchd]; simp, ?_, ?_⟩
                  · intro i hi
                    simp only [collectIdsList, List.map_append, List.mem_append] at hi
                    rcases hi with hi | hi
                    · have := hbndc i hi
                      omega
                    · have := hbnd' i hi
                      omega
                  · simp only [collectIdsList, List.map_append]
                    refine List.Nodup.append hndc hnd' ?_
                    intro a ha hb
                    have h1 := hbndc a ha
                    have h2 := hbnd' a hb
                    omega
              · rw [if_neg hoc] at hp
                obtain ⟨hcc, new', hchd, hbnd', hnd'⟩ :=
                  ihl tokens tag (j + 1) acc ce0 fe0 c children ce fe n c2 hp
                exact ⟨hcc, new', hchd, hbnd', hnd'⟩

lemma findIdx?_spec {l : List Token} {p : Token → Bool} {i : Nat}
    (h : l.findIdx? p = some i) : ∃ t, l.get? i = some t ∧ p t = true := by
  induction l generalizing i with
  | nil => simp [List.findIdx?] at h
  | cons a r ih =>
      rw [List.findIdx?_cons] at h
      by_cases hp : p a
      · simp [hp] at h
        subst h
        exact ⟨a, rfl, hp⟩
      · simp [hp] at h
        rcases h with ⟨j, hj, rfl⟩
        obtain ⟨t, hg, hpt⟩ := ih hj
        exact ⟨t, by simpa using hg, hpt⟩

lemma findIdx?_isSome {l : List Token} {p : Token → Bool} {t : Token}
    (ht : t ∈ l) (hp : p t = true) : l.findIdx? p ≠ none := by
  rw [Ne, List.findIdx?_eq_none_iff]
  push_neg
  exact ⟨t, ht, by simp [hp]⟩

lemma parse_variant {tokens : List Token} {index : Nat} {pt : Option (List Char)}
    {c : Nat} {node : PChild} {n c2 : Nat} {tok : Token}
    (hget : tokens.get? index = some tok)
    (hp : parse tokens index pt c = some (node, n, c2)) :
    node.comp = (resolveVariant tok.tag pt tok.attributes).1 ∧
    node.props = objSet (resolveVariant tok.tag pt tok.attributes).2
      "data-id".data node.pid := by
  unfold parse parseFuel at hp
  rw [show 2 * tokens.length + 2 = (2 * tokens.length + 1) + 1 from rfl] at hp
  rw [parseF, hget] at hp
  dsimp only at hp
  by_cases htype : tok.type = .openTag ∨ tok.type = .selfClosing
  · rw [dif_pos htype] at hp
    by_cases hopen : tok.type = .openTag
    · rw [if_pos hopen] at hp
      rcases hloop : childLoopF (2 * tokens.length + 1) tokens tok.tag (index + 1) []
          tok.endIndex tok.endIndex c with _ | ⟨ch, lce, lfe, ln, lc⟩
      · rw [hloop] at hp; simp at hp
      · rw [hloop] at hp
        cases hp
        exact ⟨rfl, rfl⟩
    · rw [if_neg hopen] at hp
      cases hp
      exact ⟨rfl, rfl⟩
  · rw [dif_neg htype] at hp
    simp at hp

lemma escapeXml_single (c : Char) : escapeXml [c] = specEscChar c := by
  by_cases h1 : c = '&'
  · subst h1; rfl
  · by_cases h2 : c = '<'
    · subst h2; rfl
    · by_cases h3 : c = '>'
      · subst h3; rfl
      · simp [escapeXml, jsReplaceChar, specEscChar, h1, h2, h3]

lemma escapeXml_append (a b : List Char) :
    escapeXml (a ++ b) = escapeXml a ++ escapeXml b := by
  simp [escapeXml, jsReplaceChar, List.flatMap_append]

lemma escapeXml_eq_flatMap (s : List Char) :
    escapeXml s = s.flatMap specEscChar := by
  induction s with
  | nil => rfl
  | cons c s ih =>
      rw [show (c :: s) = [c] ++ s from rfl, escapeXml_append, escapeXml_single,
        List.flatMap_append, ih]
      simp [List.flatMap_cons]

lemma splice_prefix {code mid : List Char} {a b i : Nat}
    (ha : a ≤ code.length) (hi : i < a) :
    (code.take a ++ (mid ++ code.drop b)).get? i = code.get? i := by
  have hlen : (code.take a).length = a := by
    rw [List.length_take]
    omega
  rw [List.get?_append (by omega), List.get?_take hi]

lemma splice_suffix {code mid : List Char} {a b j : Nat} (ha : a ≤ code.length) :
    (code.take a ++ (mid ++ code.drop b)).get? (a + mid.length + j) =
      code.get? (b + j) := by
  have hlen : (code.take a).length = a := by
    rw [List.length_take]
    omega
  rw [List.get?_append_right (by omega), hlen,
    List.get?_append_right (by omega)]
  have h1 : a + mid.length + j - a - mid.length = j := by omega
  rw [h1, List.get?_drop]

lemma snapLeft_le (content : List Char) : ∀ k, snapLeft content k ≤ k := by
  intro k
  induction k with
  | zero => simp [snapLeft]
  | succ k ih =>
      rw [snapLeft]
      rcases hg : content.get? k with _ | c
      · exact Nat.le_succ_of_le ih
      · by_cases hb : isBoundaryChar c
        · simp [hb]
        · simp only [hb, Bool.false_eq_true, if_false]
          exact Nat.le_succ_of_le ih

lemma snapLeft_boundary (content : List Char) : ∀ k, snapLeft content k = 0 ∨
    ∃ c, content.get? (snapLeft content k - 1) = some c ∧
      isBoundaryChar c = true := by
  intro k
  induction k with
  | zero => exact Or.inl rfl
  | succ k ih =>
      rw [snapLeft]
      rcases hg : content.get? k with _ | c
      · exact ih
      · by_cases hb : isBoundaryChar c
        · simp only [hb, if_pos]
          exact Or.inr ⟨c, by simpa using hg, hb⟩
        · simp only [hb, if_neg, Bool.false_eq_true, if_false]
          exact ih

lemma snapRightF_facts (content : List Char) : ∀ (fuel wordEnd : Nat),
    wordEnd < content.length → content.length - 1 - wordEnd ≤ fuel →
    wordEnd ≤ snapRightF content fuel wordEnd ∧
    snapRightF content fuel wordEnd < content.length ∧
    (snapRightF content fuel wordEnd = content.length - 1 ∨
      ∃ c, content.get? (snapRightF content fuel wordEnd + 1) = some c ∧
        isBoundaryChar c = true) := by
  intro fuel
  induction fuel with
  | zero =>
      intro wordEnd hlt hfuel
      have : wordEnd = content.length - 1 := by omega
      rw [snapRightF]
      exact ⟨le_refl _, hlt, Or.inl this⟩
  | succ fuel ih =>
      intro wordEnd hlt hfuel
      rw [snapRightF]
      by_cases hcond : wordEnd + 1 < content.length
      · rw [if_pos hcond]
        rcases hg : content.get? (wordEnd + 1) with _ | c
        · have := List.get?_eq_none.mp hg
          omega
        · by_cases hb : isBoundaryChar c
          · simp only [hb, if_pos]
            exact ⟨le_refl _, hlt, Or.inr ⟨c, hg, hb⟩⟩
          · simp only [hb, Bool.false_eq_true, if_false]
            have := ih (wordEnd + 1) hcond (by omega)
            exact ⟨by omega, this.2.1, this.2.2⟩
      · rw [if_neg hcond]
        exact ⟨le_refl _, hlt, Or.inl (by omega)⟩

/-- C4: a maximal text run that is pure whitespace becomes a text token with
its full original span and content; a run whose trim is nonempty becomes a
text token whose start is advanced past the leading whitespace and whose
content is the trimmed text while the end remains the run's end, so the
token's span can exceed the content length; and the tokenizer emits exactly
this token for the maximal run of characters other than the opening angle
bracket at a text position. -/
theorem claim_C4 (pos : Nat) (run : List Char) (hne : run ≠ [])
    (hnolt : ∀ c ∈ run, c ≠ '<') :
    ((∀ c ∈ run, isJsWs c = true) →
      textTok pos run = [⟨.text, [], [], run, pos, pos + run.length⟩]) ∧
    (¬ (∀ c ∈ run, isJsWs c = true) →
      textTok pos run = [⟨.text, [], [], jsTrim run,
        pos + (run.takeWhile isJsWs).length, pos + run.length⟩] ∧
      (jsTrim run).length ≤
        (pos + run.length) - (pos + (run.takeWhile isJsWs).length)) ∧
    (∀ (fuel : Nat) (c : Char) (rest : List Char) (p2 : Nat), c ≠ '<' →
      tokenizeF (fuel + 1) (c :: rest) p2 =
        textTok p2 ((c :: rest).takeWhile (fun x => x ≠ '<')) ++
        tokenizeF fuel ((c :: rest).drop
          ((c :: rest).takeWhile (fun x => x ≠ '<')).length)
          (p2 + ((c :: rest).takeWhile (fun x => x ≠ '<')).length)) := by
  refine ⟨?_, ?_, ?_⟩
  · intro hws
    have htr : jsTrim run = [] := by
      unfold jsTrim
      rw [List.reverse_eq_nil_iff, List.dropWhile_eq_nil_iff]
      intro x hx
      have hx2 : x ∈ run.dropWhile isJsWs := by simpa using hx
      have : run.dropWhile isJsWs = [] := List.dropWhile_eq_nil_iff.mpr hws
      rw [this] at hx2
      cases hx2
    unfold textTok
    rw [htr]
    simp only [List.length_nil, gt_iff_lt, Nat.lt_irrefl, if_false]
    rw [if_pos (List.length_pos.mpr hne)]
  · intro hnw
    have htr : jsTrim run ≠ [] := jsTrim_ne_nil_of_not_all hnw
    have htrl : (jsTrim run).length > 0 := List.length_pos.mpr htr
    constructor
    · unfold textTok
      rw [if_pos htrl]
    · have h1 := jsTrim_length_le run
      have h2 := takeWhile_ws_lt_of_trim htrl
      have h3 : (run.takeWhile isJsWs).length + (run.dropWhile isJsWs).length
          = run.length := by
        rw [← List.length_append, List.takeWhile_append_dropWhile]
      omega
  · intro fuel c rest p2 hc
    rw [tokenizeF]
    simp only [hc, if_false]

/-- C4 witness: the two tokenization regimes at concrete runs, obtained by
applying `claim_C4`. -/
theorem claim_C4_witness :
    textTok 5 " ab ".data = [⟨.text, [], [], "ab".data, 6, 9⟩] ∧
    textTok 5 " \t".data = [⟨.text, [], [], " \t".data, 5, 7⟩] := by
  constructor
  · have h := ((claim_C4 5 " ab ".data (by decide) (by decide)).2.1 (by decide)).1
    rw [h]
    decide
  · have h := (claim_C4 5 " \t".data (by decide) (by decide)).1 (by decide)
    rw [h]
    decide

/-- C7: an in-place edit of a text run splices the escaped new content over
exactly the run's span: the patched text is prefix ++ escape(content) ++
suffix, the escape is the character map sending the ampersand, less-than
and greater-than signs to their entities, every character before the run's
start and from its end onward is unchanged (shifted by the length delta),
and the pending focus intent (run id, cursor offset) is recorded. -/
theorem claim_C7 (code : List Char) (node : PChild) (newContent : List Char)
    (cursorPosition : Nat) (hab : node.startIdx ≤ node.endIdx)
    (hb : node.endIdx ≤ code.length) :
    (handleTextChange code node newContent cursorPosition).1 =
      code.take node.startIdx ++ escapeXml newContent ++
        code.drop node.endIdx ∧
    escapeXml newContent = newContent.flatMap specEscChar ∧
    (∀ i, i < node.startIdx →
      (handleTextChange code node newContent cursorPosition).1.get? i =
        code.get? i) ∧
    (∀ j, (handleTextChange code node newContent cursorPosition).1.get?
        (node.startIdx + (escapeXml newContent).length + j) =
      code.get? (node.endIdx + j)) ∧
    (handleTextChange code node newContent cursorPosition).2 =
      (node.pid, cursorPosition) := by
  refine ⟨rfl, escapeXml_eq_flatMap _, ?_, ?_, rfl⟩
  · intro i hi
    unfold handleTextChange
    rw [List.append_assoc]
    exact splice_prefix (by omega) hi
  · intro j
    unfold handleTextChange
    rw [List.append_assoc]
    exact splice_suffix (by omega)

/-- C7 witness: replacing a concrete run, with `claim_C7` applied at it. -/
theorem claim_C7_witness :
    (handleTextChange "<p>Hi </p>".data
      (.text "text-0".data "Hi".data 3 6) "A&B".data 1).1 =
      "<p>A&amp;B</p>".data ∧
    (handleTextChange "<p>Hi </p>".data
      (.text "text-0".data "Hi".data 3 6) "A&B".data 1).2 =
      ("text-0".data, 1) := by
  have h := claim_C7 "<p>Hi </p>".data (.text "text-0".data "Hi".data 3 6)
    "A&B".data 1 (by decide) (by decide)
  refine ⟨?_, h.2.2.2.2⟩
  rw [h.1]
  decide

/-- C8 (amended): for an offset inside a text run's content, the word snap
contains the offset, stays inside the run, and has a boundary character of
the code's set (JavaScript whitespace or one of period, comma, semicolon,
question mark, exclamation mark) or the run's edge immediately outside on
both sides. -/
theorem claim_C8 (content : List Char) (relativePos : Nat)
    (h : relativePos < content.length) :
    (wordSnap content relativePos).1 ≤ relativePos ∧
    relativePos ≤ (wordSnap content relativePos).2 ∧
    (wordSnap content relativePos).2 < content.length ∧
    ((wordSnap content relativePos).1 = 0 ∨
      ∃ c, content.get? ((wordSnap content relativePos).1 - 1) = some c ∧
        isBoundaryChar c = true) ∧
    ((wordSnap content relativePos).2 = content.length - 1 ∨
      ∃ c, content.get? ((wordSnap content relativePos).2 + 1) = some c ∧
        isBoundaryChar c = true) := by
  have hr := snapRightF_facts content content.length relativePos h (by omega)
  exact ⟨snapLeft_le content relativePos, hr.1, hr.2.1,
    snapLeft_boundary content relativePos, hr.2.2⟩

/-- C8 witness: `claim_C8` applied at a concrete run and offset. -/
theorem claim_C8_witness :
    (1 < ("hi there".data).length) ∧
    ((wordSnap "hi there".data 1).1 ≤ 1 ∧
      1 ≤ (wordSnap "hi there".data 1).2 ∧
      (wordSnap "hi there".data 1).2 < ("hi there".data).length ∧
      ((wordSnap "hi there".data 1).1 = 0 ∨
        ∃ c, ("hi there".data).get? ((wordSnap "hi there".data 1).1 - 1) =
          some c ∧ isBoundaryChar c = true) ∧
      ((wordSnap "hi there".data 1).2 = ("hi there".data).length - 1 ∨
        ∃ c, ("hi there".data).get? ((wordSnap "hi there".data 1).2 + 1) =
          some c ∧ isBoundaryChar c = true)) :=
  ⟨by decide, claim_C8 "hi there".data 1 (by decide)⟩

/-- C8 counterexample: the claim says the boundary set is exactly
space, tab, newline, period, comma, semicolon, question mark and
exclamation mark; the code's regex also treats every other JavaScript
whitespace character as a boundary.  On a run containing a form feed the
code stops at it while expansion with the claimed set would not. -/
theorem claim_C8_counterexample :
    wordSnap ['a', '\x0C', 'b'] 0 = (0, 0) ∧
    wordSnapSpecSet ['a', '\x0C', 'b'] 0 = (0, 2) ∧
    ((0, 0) : Nat × Nat) ≠ ((0, 2) : Nat × Nat) :=
  ⟨by decide, by decide, by decide⟩

/-- C5: a title element's component is decided by its immediate parent tag
(article gives the first heading level, sect1 the second, sect2 the third,
anything else or no parent the inline bold fallback); on the sample input
the title resolves to the first heading level, the bold emphasis to the
strong variant, and the text run there sits at the offset of its literal
occurrence. -/
theorem claim_C5 :
    (∀ (tokens : List Token) (index : Nat) (pt : Option (List Char)) (c : Nat)
      (node : PChild) (n c2 : Nat) (tok : Token),
      tokens.get? index = some tok →
      parse tokens index pt c = some (node, n, c2) →
      tok.tag = "title".data →
      ((pt = some "article".data → node.comp = "h1".data) ∧
       (pt = some "sect1".data → node.comp = "h2".data) ∧
       (pt = some "sect2".data → node.comp = "h3".data) ∧
       (pt ≠ some "article".data → pt ≠ some "sect1".data →
        pt ≠ some "sect2".data →
        node.comp = "strong".data ∧
        objGet node.props "className".data =
          some "font-bold text-lg block text-gray-800".data))) ∧
    ((parse (tokenize "<article><title>Welcome</title><para>Hi <emphasis role=\"bold\">there</emphasis></para></article>".data) 0 none 0).bind
      (fun r => (r.1.children.get? 0).map (fun t => t.comp)) =
        some "h1".data) ∧
    ((parse (tokenize "<article><title>Welcome</title><para>Hi <emphasis role=\"bold\">there</emphasis></para></article>".data) 0 none 0).bind
      (fun r => (r.1.children.get? 1).bind (fun p => (p.children.get? 1).map
        (fun e => (e.comp, (e.children.get? 0).map
          (fun t => (t.content, t.startIdx, t.endIdx)))))) =
        some ("strong".data, some ("there".data, 62, 67))) := by
  refine ⟨?_, by decide, by decide⟩
  intro tokens index pt c node n c2 tok hget hp htag
  have hv := (parse_variant hget hp).1
  have hpr := (parse_variant hget hp).2
  rw [htag] at hv hpr
  refine ⟨?_, ?_, ?_, ?_⟩
  · rintro rfl
    rw [hv]; rfl
  · rintro rfl
    rw [hv]; rfl
  · rintro rfl
    rw [hv]; rfl
  · intro h1 h2 h3
    rcases pt with _ | p
    · exact ⟨by rw [hv]; rfl, by rw [hpr]; rfl⟩
    · have hp1 : p ≠ "article".data := fun hh => h1 (by rw [hh])
      have hp2 : p ≠ "sect1".data := fun hh => h2 (by rw [hh])
      have hp3 : p ≠ "sect2".data := fun hh => h3 (by rw [hh])
      have hres : resolveVariant "title".data (some p) tok.attributes =
          ("strong".data,
            [("className".data, "font-bold text-lg block text-gray-800".data)]) := by
        unfold resolveVariant
        rw [if_pos rfl]
        dsimp only
        rw [if_neg hp1, if_neg hp2, if_neg hp3]
      constructor
      · rw [hv, hres]
      · rw [hpr, hres]; rfl

/-- C5 witness: `claim_C5` applied to the title element of a concrete
sect1 section. -/
theorem claim_C5_witness :
    ∃ node n c2,
      parse (tokenize "<sect1><title>T</title></sect1>".data) 1
        (some "sect1".data) 0 = some (node, n, c2) ∧
      node.comp = "h2".data := by
  have hget : (tokenize "<sect1><title>T</title></sect1>".data).get? 1 =
      some ⟨.openTag, "title".data, [], [], 7, 14⟩ := by decide
  obtain ⟨node, n, c2, hp, _, _⟩ := parse_total hget (Or.inl rfl)
  exact ⟨node, n, c2, hp,
    (claim_C5.1 _ 1 _ 0 node n c2 _ hget hp rfl).2.1 rfl⟩

/-- C6: the link target is the url attribute when that is nonempty and
otherwise the XLink href attribute; whenever a target is resolved the node
carries the new-browsing-context, no-referrer and no-opener properties; on
the sample ulink input the target resolves to exactly the given address. -/
theorem claim_C6 :
    (∀ (attrs : List (List Char × List Char)) (u : List Char),
      objGet attrs "url".data = some u → u ≠ [] →
      resolvedUrl attrs = some u) ∧
    (∀ attrs : List (List Char × List Char),
      (objGet attrs "url".data = none ∨ objGet attrs "url".data = some []) →
      resolvedUrl attrs = truthyOpt (objGet attrs "xlink:href".data)) ∧
    (∀ (tokens : List Token) (index : Nat) (pt : Option (List Char)) (c : Nat)
      (node : PChild) (n c2 : Nat) (tok : Token) (u : List Char),
      tokens.get? index = some tok →
      parse tokens index pt c = some (node, n, c2) →
      (tok.tag = "ulink".data ∨ tok.tag = "link".data) →
      resolvedUrl tok.attributes = some u →
      objGet node.props "href".data = some u ∧
      objGet node.props "target".data = some "_blank".data ∧
      objGet node.props "rel".data = some "noopener noreferrer".data) ∧
    ((parse (tokenize "<ulink url=\"https://x.test/\">x</ulink>".data)
        0 none 0).map
      (fun r => objGet r.1.props "href".data) =
        some (some "https://x.test/".data)) := by
  refine ⟨?_, ?_, ?_, by decide⟩
  · intro attrs u hu hne
    unfold resolvedUrl truthyOpt
    rw [hu]
    simp [hne]
  · intro attrs hcase
    unfold resolvedUrl
    rcases hcase with h | h
    · rw [h]; rfl
    · rw [h]; rfl
  · intro tokens index pt c node n c2 tok u hget hp htag hurl
    have hv := (parse_variant hget hp).1
    have hpr := (parse_variant hget hp).2
    rcases htag with htag | htag <;> rw [htag] at hv hpr
    · have hres : resolveVariant "ulink".data pt tok.attributes =
          ("a".data, objSet (objSet (objSet (propsOf "ulink".data)
            "href".data u) "target".data "_blank".data)
            "rel".data "noopener noreferrer".data) := by
        unfold resolveVariant
        rw [if_neg (by decide), if_neg (by decide)]
        dsimp only
        rw [if_pos (by decide), hurl]
        rfl
      rw [hpr, hres]
      exact ⟨rfl, rfl, rfl⟩
    · have hres : resolveVariant "link".data pt tok.attributes =
          ("a".data, objSet (objSet (objSet (propsOf "link".data)
            "href".data u) "target".data "_blank".data)
            "rel".data "noopener noreferrer".data) := by
        unfold resolveVariant
        rw [if_neg (by decide), if_neg (by decide)]
        dsimp only
        rw [if_pos (by decide), hurl]
        rfl
      rw [hpr, hres]
      exact ⟨rfl, rfl, rfl⟩

/-- C6 witness: `claim_C6` applied to a concrete ulink token. -/
theorem claim_C6_witness :
    ∃ node n c2,
      parse (tokenize "<ulink url=\"https://x.test/\">x</ulink>".data) 0
        none 0 = some (node, n, c2) ∧
      objGet node.props "href".data = some "https://x.test/".data ∧
      objGet node.props "target".data = some "_blank".data ∧
      objGet node.props "rel".data = some "noopener noreferrer".data := by
  have hget : (tokenize "<ulink url=\"https://x.test/\">x</ulink>".data).get? 0 =
      some ⟨.openTag, "ulink".data,
        [("url".data, "https://x.test/".data)], [], 0, 29⟩ := by decide
  obtain ⟨node, n, c2, hp, _, _⟩ := parse_total hget (Or.inl rfl)
  exact ⟨node, n, c2, hp,
    claim_C6.2.2.1 _ 0 none 0 node n c2 _ "https://x.test/".data
      hget hp (Or.inl rfl) (by decide)⟩

/-- C10: at an open or self-closing token, `parse` always returns a result
whose next index strictly exceeds the given index; consequently, whenever
the well-formedness pre-check passes and the token stream contains an open
token, `parseDocBook` returns a tree — its null branch is unreachable. -/
theorem claim_C10 :
    (∀ (tokens : List Token) (index : Nat) (pt : Option (List Char)) (c : Nat)
      (tok : Token), tokens.get? index = some tok →
      (tok.type = .openTag ∨ tok.type = .selfClosing) →
      ∃ node n c2, parse tokens index pt c = some (node, n, c2) ∧ index < n) ∧
    (∀ s : List Char, domParserAccepts s = true →
      (∃ t ∈ tokenize s, t.type = .openTag) →
      parseDocBook s ≠ none) := by
  constructor
  · intro tokens index pt c tok hget htype
    obtain ⟨node, n, c2, hp, hlt, _⟩ := parse_total hget htype
    exact ⟨node, n, c2, hp, hlt⟩
  · intro s hgate hopen
    obtain ⟨t, htmem, htype⟩ := hopen
    unfold parseDocBook
    rw [if_pos hgate]
    dsimp only
    have hne : (tokenize s).isEmpty = false := by
      rcases htok : tokenize s with _ | _
      · rw [htok] at htmem; cases htmem
      · rfl
    rw [hne]
    simp only [Bool.false_eq_true, if_false]
    rcases hfind : (tokenize s).findIdx? (fun t => t.type = .openTag) with _ | i
    · exact absurd hfind (findIdx?_isSome htmem (by simp [htype]))
    · obtain ⟨t2, hget2, hp2⟩ := findIdx?_spec hfind
      have ht2 : t2.type = .openTag := by simpa using hp2
      obtain ⟨node, n, c2, hp, _, _⟩ :=
        @parse_total (tokenize s) i none 0 t2 hget2 (Or.inl ht2)
      rw [hfind]
      show Option.map (fun r => r.1) (parse (tokenize s) i none 0) ≠ none
      rw [hp]
      simp

/-- C10 witness: `claim_C10` applied at a concrete accepted document. -/
theorem claim_C10_witness :
    domParserAccepts "<q>x</q>".data = true ∧
    parseDocBook "<q>x</q>".data ≠ none :=
  ⟨by decide, claim_C10.2 "<q>x</q>".data (by decide)
    ⟨⟨.openTag, "q".data, [], [], 0, 3⟩, by decide, rfl⟩⟩

/-- C1 (amended): an element opened at an open token is closed by the first
close token with the same case-folded tag name that its own child loop
reaches — nested open tokens are consumed whole by the recursion, so an
inner same-named element takes its own close token and the outer element is
not closed prematurely — and on the match the element's contentEnd is that
close token's start and its end that close token's end; when the loop
reaches no such token the element stays at its open token's end. -/
theorem claim_C1 (tokens : List Token) (index : Nat) (pt : Option (List Char))
    (c : Nat) (node : PChild) (n c2 : Nat) (tok : Token)
    (hs : sortedFrom 0 tokens = true)
    (hget : tokens.get? index = some tok)
    (hopen : tok.type = .openTag)
    (hp : parse tokens index pt c = some (node, n, c2)) :
    (∃ m ct, n = m + 1 ∧ tokens.get? m = some ct ∧ ct.type = .closeTag ∧
      ct.tag = tok.tag ∧ node.ceIdx = ct.startIndex ∧
      node.endIdx = ct.endIndex) ∨
    (n = tokens.length ∧ node.ceIdx = tok.endIndex ∧
      node.endIdx = tok.endIndex) := by
  obtain ⟨tok2, hget2, _, _, _, _, _, _, _, _, hexit⟩ := parse_safe hs hp
  rw [hget] at hget2
  cases hget2
  rcases hexit with h | h | h
  · exact Or.inl h
  · exact Or.inr ⟨h.2.1, h.2.2.1, h.2.2.2⟩
  · rw [hopen] at h
    cases h.1

/-- C1 witness: `claim_C1` applied to the outer element of a document that
nests a tag inside a tag of the same name; the disjunction resolves to the
close-token case. -/
theorem claim_C1_witness :
    ∃ node n c2,
      parse (tokenize "<a><a>x</a>y</a>".data) 0 none 0 = some (node, n, c2) ∧
      ((∃ m ct, n = m + 1 ∧
          (tokenize "<a><a>x</a>y</a>".data).get? m = some ct ∧
          ct.type = .closeTag ∧ ct.tag = Token.tag ⟨.openTag, "a".data, [], [], 0, 3⟩ ∧
          node.ceIdx = ct.startIndex ∧ node.endIdx = ct.endIndex) ∨
        (n = (tokenize "<a><a>x</a>y</a>".data).length ∧
          node.ceIdx = Token.endIndex ⟨.openTag, "a".data, [], [], 0, 3⟩ ∧
          node.endIdx = Token.endIndex ⟨.openTag, "a".data, [], [], 0, 3⟩)) := by
  have hget : (tokenize "<a><a>x</a>y</a>".data).get? 0 =
      some ⟨.openTag, "a".data, [], [], 0, 3⟩ := by decide
  obtain ⟨node, n, c2, hp, _, _⟩ := parse_total hget (Or.inl rfl)
  exact ⟨node, n, c2, hp,
    claim_C1 _ 0 none 0 node n c2 _ (tokenize_sorted _) hget rfl hp⟩

/-- C1 counterexample: the claim as stated predicts that the outer of two
nested same-named elements is closed prematurely at the inner element's
close token (offset 11 here); the code closes it at the second close token
(offset 16), with the inner element and the following text both among its
children. -/
theorem claim_C1_counterexample :
    (parse (tokenize "<a><a>x</a>y</a>".data) 0 none 0).map
      (fun r => (r.1.endIdx, r.1.children.map (fun k => (k.startIdx, k.endIdx)))) =
      some (16, [(3, 11), (11, 12)]) ∧
    (firstMatchingClose "a".data ((tokenize "<a><a>x</a>y</a>".data).drop 1)).map
      Token.endIndex = some 11 ∧
    (16 : Nat) ≠ 11 :=
  ⟨by decide, by decide, by decide⟩

/-- C2 (amended): when an open token has no matching close token in the
token stream, parsing still succeeds (a node is returned, never null), the
loop consumes to the end of the tokens, and the unterminated element's end
and contentEnd offsets remain at the opening tag's own end — not at the
last consumed token's end — while its children keep their true spans. -/
theorem claim_C2 (tokens : List Token) (index : Nat) (pt : Option (List Char))
    (c : Nat) (tok : Token)
    (hs : sortedFrom 0 tokens = true)
    (hget : tokens.get? index = some tok)
    (hopen : tok.type = .openTag)
    (hnoclose : ∀ t ∈ tokens, ¬ (t.type = .closeTag ∧ t.tag = tok.tag)) :
    ∃ node n c2, parse tokens index pt c = some (node, n, c2) ∧
      n = tokens.length ∧ node.endIdx = tok.endIndex ∧
      node.ceIdx = tok.endIndex := by
  obtain ⟨node, n, c2, hp, _, _⟩ := parse_total hget (Or.inl hopen)
  obtain ⟨tok2, hget2, _, _, _, _, _, _, _, _, hexit⟩ := parse_safe hs hp
  rw [hget] at hget2
  cases hget2
  refine ⟨node, n, c2, hp, ?_⟩
  rcases hexit with ⟨m, ct, hnm, hgm, hctt, hctg, _, _⟩ | h | h
  · exact absurd ⟨hctt, hctg⟩ (hnoclose ct (List.get?_mem hgm))
  · exact ⟨h.2.1, h.2.2.2, h.2.2.1⟩
  · rw [hopen] at h
    cases h.1

/-- C2 witness: `claim_C2` applied to a concrete unterminated element. -/
theorem claim_C2_witness :
    ∃ node n c2,
      parse (tokenize "<q>x".data) 0 none 0 = some (node, n, c2) ∧
      n = (tokenize "<q>x".data).length ∧ node.endIdx = 3 ∧
      node.ceIdx = 3 := by
  have hget : (tokenize "<q>x".data).get? 0 =
      some ⟨.openTag, "q".data, [], [], 0, 3⟩ := by decide
  exact claim_C2 (tokenize "<q>x".data) 0 none 0 _ (tokenize_sorted _)
    hget rfl (by decide)

/-- C2 counterexample: the claim says an unterminated element's end offset
equals the last consumed token's end; on this input the last consumed token
ends at offset 4 but the element's recorded end stays at the opening tag's
end, offset 3. -/
theorem claim_C2_counterexample :
    (parse (tokenize "<q>x".data) 0 none 0).map
      (fun r => (r.1.endIdx, r.2.1)) = some (3, 2) ∧
    ((tokenize "<q>x".data).get? 1).map Token.endIndex = some 4 ∧
    (3 : Nat) ≠ 4 :=
  ⟨by decide, by decide, by decide⟩

/-- C3 (amended): for every parse of a tokenized input, every node of the
resulting tree has an ordered span, children listed in document order with
an earlier sibling ending no later than the next one starts, and — whenever
the node's content span is nonempty, which holds exactly when its close
token was found and it has children — every child lying inside
[contentStartIndex, contentEndIndex]; for an unterminated element both
content offsets collapse to the opening tag's end, so its children (which
keep their true spans) are not covered by that interval. -/
theorem claim_C3 (s : List Char) (index : Nat) (pt : Option (List Char))
    (c : Nat) (node : PChild) (n c2 : Nat)
    (hp : parse (tokenize s) index pt c = some (node, n, c2)) :
    spansOK node = true := by
  obtain ⟨tok, _, _, _, _, hsok, _⟩ := parse_safe (tokenize_sorted s) hp
  exact hsok

/-- C3 witness: `claim_C3` applied at a concrete document. -/
theorem claim_C3_witness :
    ∃ node n c2,
      parse (tokenize "<a><b>x</b>y</a>".data) 0 none 0 = some (node, n, c2) ∧
      spansOK node = true := by
  have hget : (tokenize "<a><b>x</b>y</a>".data).get? 0 =
      some ⟨.openTag, "a".data, [], [], 0, 3⟩ := by decide
  obtain ⟨node, n, c2, hp, _, _⟩ := parse_total hget (Or.inl rfl)
  exact ⟨node, n, c2, hp, claim_C3 _ 0 none 0 node n c2 hp⟩

/-- C3 counterexample: the input is accepted (it is well-formed XML — the
end tag merely carries a space before its closing bracket, which the
tokenizer's close-tag pattern does not recognise), yet the returned tree
has a child span [3,4) outside its parent's collapsed content span [3,3]. -/
theorem claim_C3_counterexample :
    (parseDocBook "<a>x</a >".data).map (fun t =>
      (t.csIdx, t.ceIdx, (t.children.get? 0).map
        (fun k => (k.startIdx, k.endIdx)))) = some (3, 3, some (3, 4)) ∧
    ¬ ((4 : Nat) ≤ 3) :=
  ⟨by decide, by decide⟩

/-- C9 (amended): within one parse pass all identifiers are pairwise
distinct, drawn from a single counter that only increases and is reset at
the start of every parse invocation; but node ids are assigned in
completion order — a node's id is issued after all of its descendants — so
ids do not increase in document order. -/
theorem claim_C9 (tokens : List Token) (index : Nat) (pt : Option (List Char))
    (node : PChild) (n c2 : Nat)
    (hp : parse tokens index pt 0 = some (node, n, c2)) :
    (collectIds node).Nodup ∧ node.pid = natStr (c2 - 1) ∧ 0 < c2 := by
  obtain ⟨hcc, hpid, hbnd, hnd⟩ :=
    (parse_loop_ids (parseFuel tokens)).1 tokens index pt 0 node n c2 hp
  exact ⟨hnd.of_map decodeId, hpid, hcc⟩

/-- C9 witness: `claim_C9` applied at a concrete document. -/
theorem claim_C9_witness :
    ∃ node n c2,
      parse (tokenize "<a>x</a>".data) 0 none 0 = some (node, n, c2) ∧
      (collectIds node).Nodup ∧ node.pid = natStr (c2 - 1) ∧ 0 < c2 := by
  have hget : (tokenize "<a>x</a>".data).get? 0 =
      some ⟨.openTag, "a".data, [], [], 0, 3⟩ := by decide
  obtain ⟨node, n, c2, hp, _, _⟩ := parse_total hget (Or.inl rfl)
  exact ⟨node, n, c2, hp, claim_C9 _ 0 none node n c2 hp⟩

/-- C9 counterexample: on a one-element document the root node starts at
offset 0 before its text child at offset 3, yet the root's id decodes to
counter value 1 while the child's decodes to 0 — ids are not assigned in
document order, and the counter values read in document order are not
increasing. -/
theorem claim_C9_counterexample :
    (parse (tokenize "<a>x</a>".data) 0 none 0).map (fun r =>
      (r.1.pid, r.1.startIdx, (r.1.children.get? 0).map
        (fun k => (k.pid, k.startIdx)), idsAscendingInDocOrder r.1)) =
      some ("1".data, 0, some ("text-0".data, 3), false) :=
  by decide
